import Mathlib

/-!
# Verification development for the `file-exporter` repository

Shallow embedding of the core logic of the repository:

* `includes/scan_cache.py` — the `ScanCache` class (bounded, time-boxed LRU
  store of scan results keyed by normalized directory path);
* `file_exporter_core.py` — `parse_extensions`, `parse_folder_structure`
  and the `scan_directory` walk (extension filtering, cancellation,
  consecutive-error handling);
* `includes/duplicate_detector.py` — the `DuplicateDetector` class
  (size grouping, quick hashing, full hashing, duplicate groups, stats).

Modelling conventions:

* Python `dict`s are modelled as insertion-ordered association lists with
  unique keys (`dget`/`dset`/`derase`/`dappend` below reproduce lookup,
  in-place update / append-at-end insertion, `del`, and the
  `defaultdict(list)` append pattern of CPython dicts).
* Python strings are modelled as `List Char`; the string methods used by the
  source (`replace`, `lstrip`, `strip`, `split`, `lower`, `title`,
  `startswith`, `os.path.splitext`) are reimplemented character by character.
* Timestamps (Python floats from `time.time()` / `os.path.getmtime`) are
  modelled as integers: the source only ever adds and compares them.
* Filesystem state is passed explicitly: a file system is a map from a path
  to `Option` of its byte contents (`none` = the path does not exist), and
  the current time / a directory's mtime are explicit arguments.
-/

/-! ## Association lists with Python `dict` semantics -/

/-- Lookup in an insertion-ordered association list (`d[k]` / `d.get(k)`). -/
def dget {κ β : Type} [DecidableEq κ] : List (κ × β) → κ → Option β
  | [], _ => none
  | (k', v) :: t, k => if k' = k then some v else dget t k

/-- `d[k] = v`: update in place if the key is present (CPython keeps the
    original position), otherwise append the new binding at the end. -/
def dset {κ β : Type} [DecidableEq κ] : List (κ × β) → κ → β → List (κ × β)
  | [], k, v => [(k, v)]
  | (k', v') :: t, k, v =>
    if k' = k then (k', v) :: t else (k', v') :: dset t k v

/-- `del d[k]`: with unique keys, removing every binding of `k` removes
    exactly the one entry CPython would delete. -/
def derase {κ β : Type} [DecidableEq κ] : List (κ × β) → κ → List (κ × β)
  | [], _ => []
  | (k', v') :: t, k => if k' = k then derase t k else (k', v') :: derase t k

/-- The `defaultdict(list)` pattern `d[k].append(v)`. -/
def dappend {κ β : Type} [DecidableEq κ] : List (κ × β) → κ → β →
    (β → β → β) → List (κ × β)
  | [], k, v, _ => [(k, v)]
  | (k', v') :: t, k, v, upd =>
    if k' = k then (k', upd v' v) :: t else (k', v') :: dappend t k v upd

/-- The keys of an association list, in insertion order. -/
def dkeys {κ β : Type} (l : List (κ × β)) : List κ := l.map Prod.fst

@[simp] theorem dget_nil {κ β : Type} [DecidableEq κ] (k : κ) :
    dget ([] : List (κ × β)) k = none := rfl

@[simp] theorem dget_cons {κ β : Type} [DecidableEq κ] (k' k : κ) (v : β)
    (t : List (κ × β)) :
    dget ((k', v) :: t) k = if k' = k then some v else dget t k := rfl

@[simp] theorem dkeys_nil {κ β : Type} : dkeys ([] : List (κ × β)) = [] := rfl

@[simp] theorem dkeys_cons {κ β : Type} (p : κ × β) (t : List (κ × β)) :
    dkeys (p :: t) = p.1 :: dkeys t := rfl

theorem dget_isSome_iff_mem_dkeys {κ β : Type} [DecidableEq κ]
    (l : List (κ × β)) (k : κ) : (dget l k).isSome ↔ k ∈ dkeys l := by
  induction l with
  | nil => simp
  | cons p t ih =>
    obtain ⟨k', v⟩ := p
    rw [dkeys_cons, List.mem_cons]
    by_cases h : k' = k
    · simp [h]
    · rw [dget_cons, if_neg h, ih]
      constructor
      · exact Or.inr
      · rintro (h' | h')
        · exact absurd h'.symm h
        · exact h'

theorem dget_eq_none_iff_not_mem_dkeys {κ β : Type} [DecidableEq κ]
    (l : List (κ × β)) (k : κ) : dget l k = none ↔ k ∉ dkeys l := by
  rw [← dget_isSome_iff_mem_dkeys]
  cases dget l k <;> simp

theorem dget_dset_self {κ β : Type} [DecidableEq κ]
    (l : List (κ × β)) (k : κ) (v : β) : dget (dset l k v) k = some v := by
  induction l with
  | nil => simp [dset]
  | cons p t ih =>
    obtain ⟨k', v'⟩ := p
    by_cases h : k' = k <;> simp [dset, h, ih]

theorem dget_dset_ne {κ β : Type} [DecidableEq κ]
    (l : List (κ × β)) (k k₀ : κ) (v : β) (h : k ≠ k₀) :
    dget (dset l k v) k₀ = dget l k₀ := by
  induction l with
  | nil => simp [dset, h]
  | cons p t ih =>
    obtain ⟨k', v'⟩ := p
    by_cases h' : k' = k
    · subst h'; simp [dset, h]
    · simp [dset, h', ih]

theorem dkeys_dset_of_mem {κ β : Type} [DecidableEq κ]
    (l : List (κ × β)) (k : κ) (v : β) (h : k ∈ dkeys l) :
    dkeys (dset l k v) = dkeys l := by
  induction l with
  | nil => simp at h
  | cons p t ih =>
    obtain ⟨k', v'⟩ := p
    by_cases h' : k' = k
    · simp [dset, h']
    · rw [dkeys_cons, List.mem_cons] at h
      rcases h with h | h
      · exact absurd h.symm h'
      · show dkeys (if k' = k then _ else _) = _
        rw [if_neg h', dkeys_cons, dkeys_cons, ih h]

theorem dkeys_dset_of_not_mem {κ β : Type} [DecidableEq κ]
    (l : List (κ × β)) (k : κ) (v : β) (h : k ∉ dkeys l) :
    dkeys (dset l k v) = dkeys l ++ [k] := by
  induction l with
  | nil => rfl
  | cons p t ih =>
    obtain ⟨k', v'⟩ := p
    rw [dkeys_cons, List.mem_cons] at h
    push_neg at h
    show dkeys (if k' = k then _ else _) = _
    rw [if_neg (fun hk => h.1 hk.symm), dkeys_cons, dkeys_cons, ih h.2,
      List.cons_append]

theorem derase_eq_self_of_not_mem {κ β : Type} [DecidableEq κ]
    (l : List (κ × β)) (k : κ) (h : k ∉ dkeys l) : derase l k = l := by
  induction l with
  | nil => rfl
  | cons p t ih =>
    obtain ⟨k', v'⟩ := p
    rw [dkeys_cons, List.mem_cons] at h
    push_neg at h
    show (if k' = k then _ else _) = _
    rw [if_neg (fun hk => h.1 hk.symm), ih h.2]

theorem dkeys_derase {κ β : Type} [DecidableEq κ]
    (l : List (κ × β)) (k : κ) (h : (dkeys l).Nodup) :
    dkeys (derase l k) = (dkeys l).erase k := by
  induction l with
  | nil => rfl
  | cons p t ih =>
    obtain ⟨k', v'⟩ := p
    rw [dkeys_cons, List.nodup_cons] at h
    by_cases h' : k' = k
    · subst h'
      show dkeys (if k' = k' then derase t k' else _) = _
      rw [if_pos rfl, derase_eq_self_of_not_mem t k' h.1, dkeys_cons,
        List.erase_cons_head]
    · show dkeys (if k' = k then _ else _) = _
      rw [if_neg h', dkeys_cons, dkeys_cons,
        List.erase_cons_tail, ih h.2]
      simp [h']

theorem dget_derase_self {κ β : Type} [DecidableEq κ]
    (l : List (κ × β)) (k : κ) : dget (derase l k) k = none := by
  induction l with
  | nil => rfl
  | cons p t ih =>
    obtain ⟨k', v'⟩ := p
    by_cases h : k' = k
    · show dget (if k' = k then _ else _) k = none
      rw [if_pos h]; exact ih
    · show dget (if k' = k then _ else _) k = none
      rw [if_neg h, dget_cons, if_neg h]; exact ih

theorem dget_derase_ne {κ β : Type} [DecidableEq κ]
    (l : List (κ × β)) (k k₀ : κ) (h : k ≠ k₀) :
    dget (derase l k) k₀ = dget l k₀ := by
  induction l with
  | nil => rfl
  | cons p t ih =>
    obtain ⟨k', v'⟩ := p
    by_cases h' : k' = k
    · subst h'
      show dget (if k' = k' then _ else _) k₀ = _
      rw [if_pos rfl, dget_cons, if_neg h, ih]
    · show dget (if k' = k then _ else _) k₀ = _
      rw [if_neg h', dget_cons, dget_cons, ih]

theorem dkeys_length {κ β : Type} (l : List (κ × β)) :
    (dkeys l).length = l.length := by simp [dkeys]

theorem length_derase_of_mem {κ β : Type} [DecidableEq κ]
    (l : List (κ × β)) (k : κ) (hk : k ∈ dkeys l) (h : (dkeys l).Nodup) :
    (derase l k).length + 1 = l.length := by
  have h1 : dkeys (derase l k) = (dkeys l).erase k := dkeys_derase l k h
  have h2 := dkeys_length (derase l k)
  have h3 := dkeys_length l
  have h4 : ((dkeys l).erase k).length = (dkeys l).length - 1 :=
    List.length_erase_of_mem hk
  have h5 : 0 < (dkeys l).length := List.length_pos.2 (List.ne_nil_of_mem hk)
  have h6 : (dkeys (derase l k)).length = ((dkeys l).erase k).length := by
    rw [h1]
  omega

theorem dkeys_nodup_dset {κ β : Type} [DecidableEq κ]
    (l : List (κ × β)) (k : κ) (v : β) (h : (dkeys l).Nodup) :
    (dkeys (dset l k v)).Nodup := by
  by_cases hk : k ∈ dkeys l
  · rwa [dkeys_dset_of_mem l k v hk]
  · rw [dkeys_dset_of_not_mem l k v hk, List.nodup_append]
    refine ⟨h, List.nodup_singleton k, ?_⟩
    intro a ha hb
    rw [List.mem_singleton] at hb
    subst hb
    exact hk ha

theorem dkeys_nodup_derase {κ β : Type} [DecidableEq κ]
    (l : List (κ × β)) (k : κ) (h : (dkeys l).Nodup) :
    (dkeys (derase l k)).Nodup := by
  rw [dkeys_derase l k h]
  exact h.erase k

/-! ## `includes/scan_cache.py` — the `ScanCache` class

Directory arguments are modelled as already `os.path.normpath`-normalized
paths (both `get` and `put` normalize their argument first, and `normpath`
is idempotent, so every key handled below is a normalized path).
`save_cache` only mirrors the in-memory state to disk and is a no-op in the
in-memory model.  The row type is a parameter `α`. -/

namespace ScanCache

/-- One value of the `self.cache` dict: `{'results': ..., 'timestamp': ...,
    'file_count': ...}`. -/
structure CacheEntry (α : Type) where
  results : List α
  timestamp : Int
  file_count : Nat
deriving DecidableEq, Repr

/-- The mutable state of a `ScanCache` instance: the configuration from
    `__init__` plus the `cache` dict and the `history` list. -/
structure CacheState (α : Type) where
  max_cache_size : Nat
  max_age_days : Nat
  cache : List (String × CacheEntry α)
  history : List String
deriving DecidableEq, Repr

/-- A freshly constructed cache (`__init__` with no pre-existing cache
    file): empty `cache` dict and empty `history`. -/
def init (α : Type) (max_cache_size max_age_days : Nat) : CacheState α :=
  ⟨max_cache_size, max_age_days, [], []⟩

/-- `ScanCache.get(directory)`.  `now` is the value of `time.time()` and
    `dirMtime` the result of `os.path.getmtime(directory)` (`none` when that
    call raises, in which case the source ignores the mtime check).
    Returns the state after the call together with the returned value. -/
def get {α : Type} (s : CacheState α) (directory : String) (now : Int)
    (dirMtime : Option Int) : CacheState α × Option (List α) :=
  match dget s.cache directory with
  | none => (s, none)
  | some data =>
    let maxAgeSeconds : Int := (s.max_age_days : Int) * 24 * 60 * 60
    if now - data.timestamp > maxAgeSeconds then
      ({ s with cache := derase s.cache directory }, none)
    else
      match dirMtime with
      | some m =>
        if m > data.timestamp then
          ({ s with cache := derase s.cache directory }, none)
        else (s, some data.results)
      | none => (s, some data.results)

/-- `ScanCache.put(directory, results)`.  `now` is the value of
    `time.time()` recorded in the stored entry. -/
def put {α : Type} (s : CacheState α) (directory : String) (results : List α)
    (now : Int) : CacheState α :=
  -- 1. enforce the cache size limit (evict the least recently used entry)
  let step1 : List (String × CacheEntry α) × List String :=
    if s.cache.length ≥ s.max_cache_size ∧ (dget s.cache directory).isNone then
      match s.history with
      | [] => (s.cache, s.history)
      | oldest :: rest =>
        ((if (dget s.cache oldest).isSome then derase s.cache oldest
          else s.cache), rest)
    else (s.cache, s.history)
  -- 2. store the cache entry
  let cache2 := dset step1.1 directory ⟨results, now, results.length⟩
  -- 3. update the recency history (list.remove drops the first occurrence)
  let history2 := step1.2.erase directory ++ [directory]
  -- 4. keep the history size manageable
  let history3 :=
    if history2.length > s.max_cache_size * 2 then
      history2.drop (history2.length - s.max_cache_size * 2)
    else history2
  ⟨s.max_cache_size, s.max_age_days, cache2, history3⟩

/-- `ScanCache._clean_expired()` (run by `load_cache` right after reading
    the persisted state from disk). -/
def clean_expired {α : Type} (s : CacheState α) (now : Int) : CacheState α :=
  let maxAgeSeconds : Int := (s.max_age_days : Int) * 24 * 60 * 60
  let expired :=
    dkeys (s.cache.filter (fun p => now - p.2.timestamp > maxAgeSeconds))
  { s with
    cache := expired.foldl (fun c d => derase c d) s.cache,
    history := expired.foldl (fun h d => h.erase d) s.history }

/-- Run a sequence of `put` calls (directory, rows, `time.time()` value). -/
def runPuts {α : Type} (s : CacheState α) :
    List (String × List α × Int) → CacheState α
  | [] => s
  | (d, rows, t) :: ops => runPuts (put s d rows t) ops

/-- The state invariant maintained by `put`: the history holds exactly the
    cached keys (most recently put last), without duplicates, and the cache
    is no larger than `max_cache_size`. -/
structure Inv {α : Type} (s : CacheState α) : Prop where
  hist_nodup : s.history.Nodup
  keys_nodup : (dkeys s.cache).Nodup
  mem_iff : ∀ k, k ∈ s.history ↔ k ∈ dkeys s.cache
  len_eq : s.history.length = s.cache.length
  size_le : s.cache.length ≤ s.max_cache_size

theorem init_inv (α : Type) (m a : Nat) : Inv (init α m a) :=
  ⟨List.nodup_nil, List.nodup_nil, fun k => by simp [init, dkeys],
    rfl, by simp [init]⟩

end ScanCache

namespace ScanCache

theorem put_inv {α : Type} {s : CacheState α} (d : String) (rows : List α)
    (t : Int) (h : Inv s) (hm : 1 ≤ s.max_cache_size) :
    Inv (put s d rows t) := by
  obtain ⟨h1, h2, h3, h4, h5⟩ := h
  by_cases hd : d ∈ dkeys s.cache
  · -- the key is already cached: no eviction, in-place update
    have hsome : (dget s.cache d).isNone = false := by
      have hs := (dget_isSome_iff_mem_dkeys s.cache d).2 hd
      cases hdg : dget s.cache d
      · rw [hdg] at hs; simp at hs
      · simp
    have hcond :
        ¬ (s.cache.length ≥ s.max_cache_size ∧ (dget s.cache d).isNone) := by
      rintro ⟨-, hc⟩
      rw [hsome] at hc
      simp at hc
    have hmemh : d ∈ s.history := (h3 d).2 hd
    have e1 : (s.history.erase d).length = s.history.length - 1 :=
      List.length_erase_of_mem hmemh
    have e2 : 0 < s.history.length :=
      List.length_pos.2 (List.ne_nil_of_mem hmemh)
    have ekeys : dkeys (dset s.cache d ⟨rows, t, rows.length⟩) =
        dkeys s.cache := dkeys_dset_of_mem s.cache d _ hd
    have elen : (dset s.cache d ⟨rows, t, rows.length⟩).length =
        s.cache.length := by
      have := congrArg List.length ekeys
      rwa [dkeys_length, dkeys_length] at this
    have htrunc :
        ¬ ((s.history.erase d ++ [d]).length > s.max_cache_size * 2) := by
      rw [List.length_append, e1]
      simp only [List.length_singleton]
      omega
    unfold put
    rw [if_neg hcond]
    simp only [if_neg htrunc]
    refine ⟨?_, ?_, ?_, ?_, ?_⟩
    · exact List.Nodup.append (h1.erase d) (List.nodup_singleton d)
        (by
          intro a ha hb
          rw [List.mem_singleton] at hb
          subst hb
          exact ((h1.mem_erase_iff).1 ha).1 rfl)
    · rw [ekeys]; exact h2
    · intro k
      rw [List.mem_append, List.mem_singleton, ekeys, h1.mem_erase_iff]
      constructor
      · rintro (⟨-, hk⟩ | rfl)
        · exact (h3 k).1 hk
        · exact hd
      · intro hk
        by_cases hkd : k = d
        · exact Or.inr hkd
        · exact Or.inl ⟨hkd, (h3 k).2 hk⟩
    · rw [List.length_append, e1, elen]
      simp only [List.length_singleton]
      omega
    · rw [elen]; exact h5
  · -- new key
    have hnone : dget s.cache d = none :=
      (dget_eq_none_iff_not_mem_dkeys s.cache d).2 hd
    have hmemh : d ∉ s.history := fun hk => hd ((h3 d).1 hk)
    have herase : s.history.erase d = s.history := List.erase_of_not_mem hmemh
    by_cases hfull : s.cache.length ≥ s.max_cache_size
    · -- at capacity: evict the least recently used entry
      have hlen : s.cache.length = s.max_cache_size := le_antisymm h5 hfull
      have hhl : s.history.length = s.max_cache_size := by omega
      obtain ⟨oldest, rest, hh⟩ : ∃ o r, s.history = o :: r := by
        cases hhist : s.history with
        | nil => rw [hhist] at hhl; simp at hhl; omega
        | cons o r => exact ⟨o, r, rfl⟩
      have holdmem : oldest ∈ dkeys s.cache :=
        (h3 oldest).1 (hh ▸ List.mem_cons_self oldest rest)
      have holdsome : (dget s.cache oldest).isSome :=
        (dget_isSome_iff_mem_dkeys s.cache oldest).2 holdmem
      have hrestnodup : rest.Nodup := by
        rw [hh] at h1; exact (List.nodup_cons.1 h1).2
      have holdnotrest : oldest ∉ rest := by
        rw [hh] at h1; exact (List.nodup_cons.1 h1).1
      have hdrest : d ∉ rest := fun hk => hmemh (hh ▸ List.mem_cons_of_mem _ hk)
      have herase2 : rest.erase d = rest := List.erase_of_not_mem hdrest
      have ekeys1 : dkeys (derase s.cache oldest) = (dkeys s.cache).erase oldest :=
        dkeys_derase s.cache oldest h2
      have elen1 : (derase s.cache oldest).length + 1 = s.cache.length :=
        length_derase_of_mem s.cache oldest holdmem h2
      have hdkeys1 : d ∉ dkeys (derase s.cache oldest) := by
        rw [ekeys1]
        intro hk
        exact hd (((h2.mem_erase_iff).1 hk).2)
      have ekeys2 : dkeys (dset (derase s.cache oldest) d
          ⟨rows, t, rows.length⟩) = dkeys (derase s.cache oldest) ++ [d] :=
        dkeys_dset_of_not_mem _ d _ hdkeys1
      have elen2 : (dset (derase s.cache oldest) d
          ⟨rows, t, rows.length⟩).length = (derase s.cache oldest).length + 1 := by
        have := congrArg List.length ekeys2
        rwa [dkeys_length, List.length_append, dkeys_length,
          List.length_singleton] at this
      have hrestlen : rest.length + 1 = s.max_cache_size := by
        rw [hh] at hhl
        simpa using hhl
      have htrunc : ¬ ((rest.erase d ++ [d]).length > s.max_cache_size * 2) := by
        rw [herase2, List.length_append]
        simp only [List.length_singleton]
        omega
      unfold put
      rw [if_pos ⟨hfull, by rw [hnone]; rfl⟩, hh]
      simp only [if_pos holdsome, if_neg htrunc]
      refine ⟨?_, ?_, ?_, ?_, ?_⟩
      · rw [herase2]
        exact List.Nodup.append hrestnodup (List.nodup_singleton d)
          (by
            intro a ha hb
            rw [List.mem_singleton] at hb
            subst hb
            exact hdrest ha)
      · rw [ekeys2, ekeys1]
        exact List.Nodup.append (h2.erase oldest) (List.nodup_singleton d)
          (by
            intro a ha hb
            rw [List.mem_singleton] at hb
            subst hb
            exact hd (((h2.mem_erase_iff).1 ha).2))
      · intro k
        rw [herase2, List.mem_append, List.mem_singleton, ekeys2, ekeys1,
          List.mem_append, List.mem_singleton, h2.mem_erase_iff]
        constructor
        · rintro (hk | rfl)
          · refine Or.inl ⟨?_, ?_⟩
            · rintro rfl; exact holdnotrest hk
            · exact (h3 k).1 (hh ▸ List.mem_cons_of_mem _ hk)
          · exact Or.inr rfl
        · rintro (⟨hko, hk⟩ | rfl)
          · have : k ∈ s.history := (h3 k).2 hk
            rw [hh, List.mem_cons] at this
            rcases this with rfl | hk'
            · exact absurd rfl hko
            · exact Or.inl hk'
          · exact Or.inr rfl
      · dsimp only
        rw [herase2, List.length_append, elen2]
        simp only [List.length_singleton]
        omega
      · dsimp only
        rw [elen2]
        omega
    · -- below capacity: plain insertion
      have hcond :
          ¬ (s.cache.length ≥ s.max_cache_size ∧ (dget s.cache d).isNone) := by
        rintro ⟨hc, -⟩
        exact hfull hc
      have ekeys : dkeys (dset s.cache d ⟨rows, t, rows.length⟩) =
          dkeys s.cache ++ [d] := dkeys_dset_of_not_mem s.cache d _ hd
      have elen : (dset s.cache d ⟨rows, t, rows.length⟩).length =
          s.cache.length + 1 := by
        have := congrArg List.length ekeys
        rwa [dkeys_length, List.length_append, dkeys_length,
          List.length_singleton] at this
      have htrunc :
          ¬ ((s.history.erase d ++ [d]).length > s.max_cache_size * 2) := by
        rw [herase, List.length_append]
        simp only [List.length_singleton]
        omega
      unfold put
      rw [if_neg hcond]
      simp only [if_neg htrunc]
      refine ⟨?_, ?_, ?_, ?_, ?_⟩
      · rw [herase]
        exact List.Nodup.append h1 (List.nodup_singleton d)
          (by
            intro a ha hb
            rw [List.mem_singleton] at hb
            subst hb
            exact hmemh ha)
      · rw [ekeys]
        exact List.Nodup.append h2 (List.nodup_singleton d)
          (by
            intro a ha hb
            rw [List.mem_singleton] at hb
            subst hb
            exact hd ha)
      · intro k
        rw [herase, List.mem_append, List.mem_singleton, ekeys,
          List.mem_append, List.mem_singleton]
        constructor
        · rintro (hk | rfl)
          · exact Or.inl ((h3 k).1 hk)
          · exact Or.inr rfl
        · rintro (hk | rfl)
          · exact Or.inl ((h3 k).2 hk)
          · exact Or.inr rfl
      · dsimp only
        rw [herase, List.length_append, elen]
        simp only [List.length_singleton]
        omega
      · dsimp only
        rw [elen]
        omega

theorem put_max_cache_size {α : Type} (s : CacheState α) (d : String)
    (rows : List α) (t : Int) :
    (put s d rows t).max_cache_size = s.max_cache_size := rfl

theorem runPuts_inv {α : Type} (m a : Nat) (hm : 1 ≤ m)
    (ops : List (String × List α × Int)) :
    Inv (runPuts (init α m a) ops) ∧
    (runPuts (init α m a) ops).max_cache_size = m := by
  suffices H : ∀ (ops : List (String × List α × Int)) (s : CacheState α),
      Inv s → s.max_cache_size = m → Inv (runPuts s ops) ∧
      (runPuts s ops).max_cache_size = m from
    H ops (init α m a) (init_inv α m a) rfl
  intro ops
  induction ops with
  | nil => intro s hs hsm; exact ⟨hs, hsm⟩
  | cons op rest ih =>
    intro s hs hsm
    obtain ⟨d, rows, t⟩ := op
    exact ih (put s d rows t) (put_inv d rows t hs (hsm ▸ hm))
      (by rw [put_max_cache_size, hsm])

end ScanCache

namespace ScanCache

theorem dget_put_cache_self {α : Type} (s : CacheState α) (d : String)
    (rows : List α) (t : Int) :
    dget (put s d rows t).cache d =
      some ⟨rows, t, rows.length⟩ :=
  dget_dset_self _ d _

theorem put_evicts_lru {α : Type} {s : CacheState α} (d : String)
    (rows : List α) (t : Int) (h : Inv s) (hm : 1 ≤ s.max_cache_size)
    (hd : dget s.cache d = none) (hfull : s.cache.length = s.max_cache_size) :
    ∃ lru rest, s.history = lru :: rest ∧ lru ∈ dkeys s.cache ∧
      dkeys (put s d rows t).cache = ((dkeys s.cache).erase lru) ++ [d] ∧
      (put s d rows t).cache.length = s.max_cache_size := by
  obtain ⟨h1, h2, h3, h4, h5⟩ := h
  have hdk : d ∉ dkeys s.cache := (dget_eq_none_iff_not_mem_dkeys _ _).1 hd
  have hhl : s.history.length = s.max_cache_size := by omega
  obtain ⟨oldest, rest, hh⟩ : ∃ o r, s.history = o :: r := by
    cases hhist : s.history with
    | nil => rw [hhist] at hhl; simp at hhl; omega
    | cons o r => exact ⟨o, r, rfl⟩
  have holdmem : oldest ∈ dkeys s.cache :=
    (h3 oldest).1 (hh ▸ List.mem_cons_self oldest rest)
  have holdsome : (dget s.cache oldest).isSome :=
    (dget_isSome_iff_mem_dkeys s.cache oldest).2 holdmem
  have hput : (put s d rows t).cache =
      dset (derase s.cache oldest) d ⟨rows, t, rows.length⟩ := by
    unfold put
    rw [if_pos ⟨hfull.ge, by rw [hd]; rfl⟩, hh]
    simp only [if_pos holdsome]
  have hdk1 : d ∉ dkeys (derase s.cache oldest) := by
    rw [dkeys_derase s.cache oldest h2]
    intro hk
    exact hdk ((h2.mem_erase_iff).1 hk).2
  refine ⟨oldest, rest, hh, holdmem, ?_, ?_⟩
  · rw [hput, dkeys_dset_of_not_mem _ d _ hdk1, dkeys_derase s.cache oldest h2]
  · have e1 : (derase s.cache oldest).length + 1 = s.cache.length :=
      length_derase_of_mem s.cache oldest holdmem h2
    have e2 : dkeys (dset (derase s.cache oldest) d ⟨rows, t, rows.length⟩) =
        dkeys (derase s.cache oldest) ++ [d] :=
      dkeys_dset_of_not_mem _ d _ hdk1
    have e3 := congrArg List.length e2
    rw [dkeys_length, List.length_append, dkeys_length,
      List.length_singleton] at e3
    rw [hput]
    omega

/-- C1: starting from a fresh cache, for every sequence of `put` operations
    (with `max_cache_size ≥ 1`, default 10): after every put the cache holds
    at most `max_cache_size` entries, and whenever `put` is called with a key
    not in the cache while the cache is full, the evicted key is exactly the
    head of the recency-ordered history list (the least recently referenced
    path), which is a cached key; the resulting key set is the old one with
    the LRU key removed and the new key appended. -/
theorem scanCache_put_lru_eviction_and_size_bound (α : Type) (m a : Nat)
    (hm : 1 ≤ m) (ops : List (String × List α × Int)) :
    (runPuts (init α m a) ops).cache.length ≤ m ∧
    (∀ (d : String) (rows : List α) (t : Int),
      dget (runPuts (init α m a) ops).cache d = none →
      (runPuts (init α m a) ops).cache.length = m →
      ∃ lru rest,
        (runPuts (init α m a) ops).history = lru :: rest ∧
        lru ∈ dkeys (runPuts (init α m a) ops).cache ∧
        dkeys (put (runPuts (init α m a) ops) d rows t).cache =
          ((dkeys (runPuts (init α m a) ops).cache).erase lru) ++ [d] ∧
        (put (runPuts (init α m a) ops) d rows t).cache.length = m) := by
  obtain ⟨hinv, hmax⟩ := runPuts_inv m a hm ops
  constructor
  · have := hinv.size_le
    omega
  · intro d rows t hd hfull
    obtain ⟨lru, rest, e1, e2, e3, e4⟩ :=
      put_evicts_lru d rows t hinv (by omega) hd (by omega)
    exact ⟨lru, rest, e1, e2, e3, by omega⟩

theorem scanCache_put_lru_eviction_and_size_bound_witness :
    (runPuts (init Nat 1 7) [("a", [1], 0)]).cache.length ≤ 1 ∧
    (∃ lru rest,
      (runPuts (init Nat 1 7) [("a", [1], 0)]).history = lru :: rest ∧
      lru ∈ dkeys (runPuts (init Nat 1 7) [("a", [1], 0)]).cache ∧
      dkeys (put (runPuts (init Nat 1 7) [("a", [1], 0)]) "b" [2] 5).cache =
        ((dkeys (runPuts (init Nat 1 7) [("a", [1], 0)]).cache).erase lru)
          ++ ["b"] ∧
      (put (runPuts (init Nat 1 7) [("a", [1], 0)]) "b" [2] 5).cache.length
        = 1) :=
  have h := scanCache_put_lru_eviction_and_size_bound Nat 1 7 (by decide)
    [("a", [1], 0)]
  ⟨h.1, h.2 "b" [2] 5 rfl rfl⟩

end ScanCache

namespace ScanCache

/-- C3: `get(D)` treats a cached entry as absent once stale.  If the entry's
    age exceeds `max_age_days` (default 7 days) worth of seconds, `get`
    evicts it and returns empty; if the directory's mtime is newer than the
    entry's capture timestamp, `get` evicts it and returns empty; and in
    particular, after `put(D, rows)` at capture time `t`, a directory mtime
    `m > t` makes `get(D)` return empty and evict the entry. -/
theorem scanCache_get_stale {α : Type} (s : CacheState α) (d : String)
    (now : Int) (mt : Option Int) (e : CacheEntry α)
    (he : dget s.cache d = some e) :
    (now - e.timestamp > (s.max_age_days : Int) * 24 * 60 * 60 →
       (get s d now mt).2 = none ∧ dget (get s d now mt).1.cache d = none) ∧
    (∀ m, mt = some m → m > e.timestamp →
       (get s d now mt).2 = none ∧ dget (get s d now mt).1.cache d = none) ∧
    (∀ (s' : CacheState α) (rows : List α) (t now' m : Int), m > t →
       (get (put s' d rows t) d now' (some m)).2 = none ∧
       dget (get (put s' d rows t) d now' (some m)).1.cache d = none) := by
  refine ⟨?_, ?_, ?_⟩
  · intro hage
    unfold get
    rw [he]
    simp only [if_pos hage]
    refine ⟨by trivial, dget_derase_self s.cache d⟩
  · intro m hmt hstale
    unfold get
    rw [he]
    subst hmt
    by_cases hage : now - e.timestamp > (s.max_age_days : Int) * 24 * 60 * 60
    · simp only [if_pos hage]
      refine ⟨by trivial, dget_derase_self s.cache d⟩
    · simp only [if_neg hage, if_pos hstale]
      refine ⟨by trivial, dget_derase_self s.cache d⟩
  · intro s' rows t now' m hstale
    have he' : dget (put s' d rows t).cache d = some ⟨rows, t, rows.length⟩ :=
      dget_put_cache_self s' d rows t
    unfold get
    rw [he']
    by_cases hage : now' - t >
        ((put s' d rows t).max_age_days : Int) * 24 * 60 * 60
    · simp only [if_pos hage]
      refine ⟨by trivial, dget_derase_self _ d⟩
    · simp only [if_neg hage, if_pos hstale]
      refine ⟨by trivial, dget_derase_self _ d⟩

theorem scanCache_get_stale_witness :
    (get (put (init Nat 1 7) "a" [5] 0) "a" 1 (some 2)).2 = none ∧
    dget (get (put (init Nat 1 7) "a" [5] 0) "a" 1 (some 2)).1.cache "a"
      = none :=
  (scanCache_get_stale (put (init Nat 1 7) "a" [5] 0) "a" 1 (some 2)
      ⟨[5], 0, 1⟩ rfl).2.2 (init Nat 1 7) [5] 0 1 2 (by decide)

/-- C4: `put(D, rows)` at capture time `t` followed immediately by `get(D)`
    at time `now` returns `rows` unchanged, provided the entry has not aged
    past the maximum (`now - t ≤ max_age_days` in seconds) and D's
    modification time has not been advanced past the capture timestamp. -/
theorem scanCache_put_get_roundtrip {α : Type} (s : CacheState α)
    (d : String) (rows : List α) (t now : Int) (mt : Option Int)
    (hage : now - t ≤ (s.max_age_days : Int) * 24 * 60 * 60)
    (hmt : ∀ m, mt = some m → m ≤ t) :
    (get (put s d rows t) d now mt).2 = some rows := by
  have he : dget (put s d rows t).cache d = some ⟨rows, t, rows.length⟩ :=
    dget_put_cache_self s d rows t
  have hmax : (put s d rows t).max_age_days = s.max_age_days := rfl
  unfold get
  rw [he]
  have hage' : ¬ (now - t >
      ((put s d rows t).max_age_days : Int) * 24 * 60 * 60) := by
    rw [hmax]
    omega
  simp only [if_neg hage']
  cases mt with
  | none => rfl
  | some m =>
    have : ¬ (m > t) := by
      have := hmt m rfl
      omega
    simp only [if_neg this]

theorem scanCache_put_get_roundtrip_witness :
    (get (put (init Nat 1 7) "a" [5] 0) "a" 1 (some 0)).2 = some [5] :=
  scanCache_put_get_roundtrip (init Nat 1 7) "a" [5] 0 1 (some 0)
    (by decide) (fun m hm => by cases hm; decide)

/-- C10: `get` never modifies the recency history list (a hit does not move
    the key, an eviction inside `get` leaves the history untouched); when
    `get` returns empty the key is absent from the resulting cache mapping
    (an in-`get` eviction removes only the cache entry); and on a cache hit
    the whole state is unchanged. -/
theorem scanCache_get_history_frame {α : Type} (s : CacheState α)
    (d : String) (now : Int) (mt : Option Int) :
    (get s d now mt).1.history = s.history ∧
    ((get s d now mt).2 = none → dget (get s d now mt).1.cache d = none) ∧
    (∀ rows, (get s d now mt).2 = some rows → (get s d now mt).1 = s) := by
  unfold get
  cases he : dget s.cache d with
  | none =>
    refine ⟨rfl, fun _ => he, fun rows hr => rfl⟩
  | some e =>
    by_cases hage : now - e.timestamp > (s.max_age_days : Int) * 24 * 60 * 60
    · simp only [if_pos hage]
      refine ⟨by trivial, fun _ => dget_derase_self s.cache d,
        fun rows hr => by simp at hr⟩
    · simp only [if_neg hage]
      cases mt with
      | none =>
        refine ⟨by trivial, fun h => by simp at h, fun rows hr => by trivial⟩
      | some m =>
        by_cases hstale : m > e.timestamp
        · simp only [if_pos hstale]
          refine ⟨by trivial, fun _ => dget_derase_self s.cache d,
            fun rows hr => by simp at hr⟩
        · simp only [if_neg hstale]
          refine ⟨by trivial, fun h => by simp at h, fun rows hr => by trivial⟩

theorem scanCache_get_history_frame_witness :
    dget (get (init Nat 1 7) "a" 0 none).1.cache "a" = none :=
  (scanCache_get_history_frame (init Nat 1 7) "a" 0 none).2.1 rfl

end ScanCache

/-! ## Python string primitives

Python strings are modelled as `List Char` (`PyStr`).  Each definition below
reimplements exactly the CPython behaviour of the corresponding `str` method
as used by the source (ASCII case mapping via `Char.toLower`/`Char.toUpper`,
which is what Python does on the ASCII paths and extensions involved). -/

abbrev PyStr := List Char

/-- `s.lower()`. -/
def pyLower (s : PyStr) : PyStr := s.map Char.toLower

/-- `s.startswith(px)`: is `px` an initial segment of `s`? -/
def pyStartswith : PyStr → PyStr → Bool
  | [], _ => true
  | _ :: _, [] => false
  | p :: ps, c :: cs => p == c && pyStartswith ps cs

/-- Worker for `str.replace(pat, '')`, structurally recursive on a fuel
    that bounds the length of the remaining string (each step consumes at
    least one character, so `fuel = s.length` suffices). -/
def pyRemoveAllAux (pat : PyStr) : Nat → PyStr → PyStr
  | _, [] => []
  | 0, s => s
  | fuel + 1, c :: t =>
    if pat ≠ [] ∧ pyStartswith pat (c :: t) then
      pyRemoveAllAux pat fuel ((c :: t).drop pat.length)
    else c :: pyRemoveAllAux pat fuel t

/-- `s.replace(pat, '')`: remove every non-overlapping occurrence of `pat`,
    scanning left to right (the behaviour of `str.replace` with an empty
    replacement; with an empty pattern `str.replace(pat, '')` returns `s`
    unchanged). -/
def pyRemoveAll (pat s : PyStr) : PyStr := pyRemoveAllAux pat s.length s

/-- `s.lstrip(chars)`: drop the longest run of leading characters that
    belong to `chars`. -/
def pyLstrip (chars : PyStr) (s : PyStr) : PyStr :=
  s.dropWhile (fun c => chars.contains c)

/-- `s.strip()`: drop leading and trailing whitespace. -/
def pyStrip (s : PyStr) : PyStr :=
  ((s.dropWhile Char.isWhitespace).reverse.dropWhile Char.isWhitespace).reverse

/-- `s.split(sep)` for a one-character separator: `'a,,b'.split(',')`
    is `['a', '', 'b']` and `''.split(',')` is `['']`. -/
def pySplitChar (sep : Char) : PyStr → List PyStr
  | [] => [[]]
  | c :: t =>
    if c = sep then [] :: pySplitChar sep t
    else
      match pySplitChar sep t with
      | [] => [[c]]
      | h :: r => (c :: h) :: r

/-- Worker for `str.title()`: CPython upper-cases every cased character that
    does not follow a cased character and lower-cases the rest. -/
def pyTitleAux : Bool → PyStr → PyStr
  | _, [] => []
  | prevCased, c :: t =>
    if c.isAlpha then
      (if prevCased then c.toLower else c.toUpper) :: pyTitleAux true t
    else c :: pyTitleAux false t

/-- `s.title()`. -/
def pyTitle (s : PyStr) : PyStr := pyTitleAux false s

/-- Worker for the extension part of `os.path.splitext`: `seen` records
    whether a character other than `'.'` has occurred before the current
    position.  The result is the suffix starting at the last dot that is
    preceded by some non-dot character, `[]` when there is none — exactly
    CPython's rule that everything from the last dot on is the extension
    unless the characters before that dot are all dots (so leading-dot
    filenames such as `.bashrc` have no extension). -/
def pyExtAux : Bool → PyStr → PyStr
  | _, [] => []
  | seen, c :: t =>
    let r := pyExtAux (seen || !(c == '.')) t
    if !r.isEmpty then r
    else if c == '.' && seen then c :: t else []

/-- The extension part of `os.path.splitext(f)` for a bare filename `f`
    (the filenames handed out by `os.walk` contain no path separator). -/
def pyExt (f : PyStr) : PyStr := pyExtAux false f

/-! ## `file_exporter_core.py` — pure helpers -/

/-- `parse_extensions(extension_string)`: split on commas, strip whitespace,
    lower-case, and prepend a dot to entries that lack one.  An empty or
    whitespace-only string yields the empty filter. -/
def parse_extensions (extension_string : PyStr) : List PyStr :=
  if extension_string = [] ∨ pyStrip extension_string = [] then []
  else
    (pySplitChar ',' extension_string).map (fun e =>
      if pyStartswith ['.'] (pyStrip e) then pyLower (pyStrip e)
      else '.' :: pyLower (pyStrip e))

/-- `parse_folder_structure(full_path, base_path, title_case)`: the source
    computes `full_path.replace(base_path, '').lstrip('\\').lstrip('/')`,
    splits on `os.sep` (the parameter `sep`), keeps the non-empty segments
    and optionally title-cases them. -/
def parse_folder_structure (full_path base_path : PyStr) (title_case : Bool)
    (sep : Char) : List PyStr :=
  let relative_path :=
    pyLstrip ['/'] (pyLstrip ['\\'] (pyRemoveAll base_path full_path))
  let folders := (pySplitChar sep relative_path).filter (fun f => !f.isEmpty)
  if title_case then folders.map pyTitle else folders

/-- C5: the claim (and the function's own docstring, "Base path to strip
    from the beginning") says only the leading base-path occurrence is
    stripped, but the source uses `str.replace`, which removes every
    occurrence of the base path anywhere in the visited path.  On
    `full_path = '/a/b/a'`, `base_path = '/a'` the code produces `['B']`
    (both occurrences of `/a` removed), not the `['B', 'A']` that stripping
    only the leading prefix would give. -/
theorem parse_folder_structure_replaces_every_occurrence :
    parse_folder_structure ("/a/b/a".toList) ("/a".toList) true '/'
      = [['B']] ∧
    parse_folder_structure ("/a/b/a".toList) ("/a".toList) true '/'
      ≠ [['B'], ['A']] := by
  constructor
  · rfl
  · decide

/-! ## Character-level facts about `Char.toLower`

`str.lower()` on the ASCII alphabet is `Char.toLower` pointwise; these
lemmas record that lower-casing moves `A`–`Z` into `a`–`z` and fixes every
other character, so it preserves dots, commas, slashes and whitespace. -/

theorem char_eq_iff_toNat (c d : Char) : c = d ↔ c.toNat = d.toNat := by
  constructor
  · intro h; rw [h]
  · intro h
    have := congrArg Char.ofNat h
    rwa [Char.ofNat_toNat, Char.ofNat_toNat] at this

theorem toLower_toNat (c : Char) :
    c.toLower.toNat =
      if 65 ≤ c.toNat ∧ c.toNat ≤ 90 then c.toNat + 32 else c.toNat := by
  rw [Char.toLower]
  by_cases h : c.toNat ≥ 65 ∧ c.toNat ≤ 90
  · rw [if_pos h, if_pos ⟨h.1, h.2⟩]
    have hv : Nat.isValidChar (c.toNat + 32) := Or.inl (by omega)
    rw [Char.ofNat, dif_pos hv]
    simp [Char.ofNatAux, Char.toNat, UInt32.toNat, UInt32.ofNat',
      BitVec.toNat_ofNatLt]
  · rw [if_neg h, if_neg (fun hc => h ⟨hc.1, hc.2⟩)]

theorem toLower_eq_low (c d : Char) (hd : d.toNat < 65) :
    c.toLower = d ↔ c = d := by
  rw [char_eq_iff_toNat, char_eq_iff_toNat, toLower_toNat]
  by_cases h : 65 ≤ c.toNat ∧ c.toNat ≤ 90
  · rw [if_pos h]
    omega
  · rw [if_neg h]

theorem toLower_toLower (c : Char) : c.toLower.toLower = c.toLower := by
  rw [char_eq_iff_toNat, toLower_toNat, toLower_toNat]
  by_cases h : 65 ≤ c.toNat ∧ c.toNat ≤ 90
  · simp only [if_pos h]
    rw [if_neg (by omega : ¬ (65 ≤ c.toNat + 32 ∧ c.toNat + 32 ≤ 90))]
  · simp only [if_neg h]

theorem beq_toLower_low (c d : Char) (hd : d.toNat < 65) :
    (c.toLower == d) = (c == d) := by
  by_cases h : c = d
  · subst h
    have : c.toLower = c := (toLower_eq_low c c hd).2 rfl
    rw [this]
  · have h2 : ¬ (c.toLower = d) := fun hc => h ((toLower_eq_low c d hd).1 hc)
    simp [h, h2]

theorem isWhitespace_toLower (c : Char) :
    c.toLower.isWhitespace = c.isWhitespace := by
  have h1 : decide (c.toLower = ' ') = decide (c = ' ') :=
    decide_eq_decide.mpr (toLower_eq_low c ' ' (by decide))
  have h2 : decide (c.toLower = '\t') = decide (c = '\t') :=
    decide_eq_decide.mpr (toLower_eq_low c '\t' (by decide))
  have h3 : decide (c.toLower = '\r') = decide (c = '\r') :=
    decide_eq_decide.mpr (toLower_eq_low c '\r' (by decide))
  have h4 : decide (c.toLower = '\n') = decide (c = '\n') :=
    decide_eq_decide.mpr (toLower_eq_low c '\n' (by decide))
  rw [Char.isWhitespace, Char.isWhitespace, h1, h2, h3, h4]

/-! ## String-level consequences: `lower()` commutes with every string
operation involved in extension filtering -/

theorem char_beq_comm (a b : Char) : (a == b) = (b == a) := by
  by_cases h : a = b
  · subst h; rfl
  · have h2 : ¬ b = a := fun hb => h hb.symm
    simp [h, h2]

theorem pyLower_pyLower (s : PyStr) : pyLower (pyLower s) = pyLower s := by
  unfold pyLower
  rw [List.map_map]
  exact List.map_congr_left (fun c _ => toLower_toLower c)

theorem pyExtAux_pyLower (seen : Bool) (f : PyStr) :
    pyExtAux seen (pyLower f) = pyLower (pyExtAux seen f) := by
  induction f generalizing seen with
  | nil => rfl
  | cons c t ih =>
    show pyExtAux seen (c.toLower :: pyLower t) = _
    rw [pyExtAux]
    rw [beq_toLower_low c '.' (by decide)]
    rw [ih (seen || !(c == '.'))]
    rw [pyExtAux]
    have hempty : (pyLower (pyExtAux (seen || !(c == '.')) t)).isEmpty =
        (pyExtAux (seen || !(c == '.')) t).isEmpty := by
      cases pyExtAux (seen || !(c == '.')) t <;> rfl
    rw [hempty]
    by_cases h1 : (!(pyExtAux (seen || !(c == '.')) t).isEmpty) = true
    · rw [if_pos h1, if_pos h1]
    · rw [if_neg h1, if_neg h1]
      by_cases h2 : ((c == '.') && seen) = true
      · rw [if_pos h2, if_pos h2]
        rfl
      · rw [if_neg h2, if_neg h2]
        rfl

theorem pyExt_pyLower (f : PyStr) : pyExt (pyLower f) = pyLower (pyExt f) :=
  pyExtAux_pyLower false f

theorem pyStrip_pyLower (s : PyStr) :
    pyStrip (pyLower s) = pyLower (pyStrip s) := by
  unfold pyStrip pyLower
  rw [List.dropWhile_map, ← List.map_reverse, List.dropWhile_map,
    ← List.map_reverse]
  have h : (Char.isWhitespace ∘ Char.toLower) = Char.isWhitespace := by
    funext c
    exact isWhitespace_toLower c
  rw [h]

theorem pySplitChar_comma_pyLower (s : PyStr) :
    pySplitChar ',' (pyLower s) = (pySplitChar ',' s).map pyLower := by
  induction s with
  | nil => rfl
  | cons c t ih =>
    show pySplitChar ',' (c.toLower :: pyLower t) = _
    rw [pySplitChar, pySplitChar]
    by_cases h : c = ','
    · rw [if_pos ((toLower_eq_low c ',' (by decide)).2 h), if_pos h, ih]
      rfl
    · rw [if_neg (fun hl => h ((toLower_eq_low c ',' (by decide)).1 hl)),
        if_neg h, ih]
      cases hsp : pySplitChar ',' t with
      | nil => rfl
      | cons hd tl => rfl

theorem pyStartswith_dot_pyLower (x : PyStr) :
    pyStartswith ['.'] (pyLower x) = pyStartswith ['.'] x := by
  cases x with
  | nil => rfl
  | cons c t =>
    show ('.' == c.toLower && pyStartswith [] (pyLower t)) = _
    rw [char_beq_comm '.' c.toLower, beq_toLower_low c '.' (by decide),
      char_beq_comm c '.']
    rfl

theorem parse_extensions_pyLower (s : PyStr) :
    parse_extensions (pyLower s) = parse_extensions s := by
  unfold parse_extensions
  have hnil : (pyLower s = []) = (s = []) := by
    unfold pyLower
    exact propext List.map_eq_nil_iff
  have hstrip : (pyStrip (pyLower s) = []) = (pyStrip s = []) := by
    rw [pyStrip_pyLower]
    show (pyLower (pyStrip s) = []) = _
    unfold pyLower
    exact propext List.map_eq_nil_iff
  by_cases h : s = [] ∨ pyStrip s = []
  · rw [if_pos (by rw [hnil, hstrip]; exact h), if_pos h]
  · rw [if_neg (by rw [hnil, hstrip]; exact h), if_neg h]
    rw [pySplitChar_comma_pyLower, List.map_map]
    refine List.map_congr_left (fun e _ => ?_)
    show (if pyStartswith ['.'] (pyStrip (pyLower e)) then
        pyLower (pyStrip (pyLower e))
      else '.' :: pyLower (pyStrip (pyLower e))) = _
    rw [pyStrip_pyLower, pyStartswith_dot_pyLower, pyLower_pyLower]

theorem parse_extensions_entry_starts_with_dot (s : PyStr) (e : PyStr)
    (he : e ∈ parse_extensions s) : pyStartswith ['.'] e = true := by
  unfold parse_extensions at he
  by_cases h : s = [] ∨ pyStrip s = []
  · rw [if_pos h] at he
    simp at he
  · rw [if_neg h] at he
    rw [List.mem_map] at he
    obtain ⟨x, -, hx⟩ := he
    by_cases hd : pyStartswith ['.'] (pyStrip x) = true
    · rw [if_pos hd] at hx
      subst hx
      rw [pyStartswith_dot_pyLower]
      exact hd
    · rw [if_neg hd] at hx
      subst hx
      rfl

/-! ## `file_exporter_core.py` — `scan_directory`

The walk order of `os.walk` (an external library iterator) is modelled as an
explicit list of `(dirpath, filenames)` items, one per visited directory.
The body of the per-file `try` block — `parse_folder_structure` plus
`build_row`, which touch the real filesystem — is modelled by a row builder
`rowFn dirpath filename : Option ρ`, where `none` models the caught
`OSError`/`Exception` (both `except` arms behave identically: count the
error and `continue`).  The stateful `cancel_check` closure is modelled as a
pure function of the invocation index: the k-th call returns `cancel k`.
Progress callbacks and network throttling do not affect the returned rows
and are omitted. -/

namespace Scanner

/-- The mutable loop state of `scan_directory`: accumulated rows, the
    consecutive-error counter, and how many times `cancel_check` has been
    invoked. -/
structure ScanSt (ρ : Type) where
  files : List ρ
  consecutive_errors : Nat
  checks : Nat
deriving DecidableEq, Repr

/-- The scan-aborting failure: `ConnectionError` raised on too many
    consecutive errors, re-raised by the outer handler as
    `Exception('Network or permission error: ...')`. -/
inductive ScanError where
  | network_or_permission_error
deriving DecidableEq, Repr

/-- The inner `for filename in filenames` loop: check cancellation before
    each file (`break` on cancel), apply the extension filter (`continue`
    creates no record), then build the row; success appends the row and
    resets the consecutive-error counter, failure counts the error and
    continues. -/
def scanFiles {ρ : Type} (cancel : Nat → Bool) (extensions : List PyStr)
    (rowFn : PyStr → PyStr → Option ρ) (dirpath : PyStr) :
    List PyStr → ScanSt ρ → ScanSt ρ
  | [], st => st
  | f :: fs, st =>
    if cancel st.checks then { st with checks := st.checks + 1 }
    else
      let st1 : ScanSt ρ :=
        ⟨st.files, st.consecutive_errors, st.checks + 1⟩
      if extensions ≠ [] ∧ pyLower (pyExt f) ∉ extensions then
        scanFiles cancel extensions rowFn dirpath fs st1
      else
        match rowFn dirpath f with
        | some row =>
          scanFiles cancel extensions rowFn dirpath fs
            ⟨st1.files ++ [row], 0, st1.checks⟩
        | none =>
          scanFiles cancel extensions rowFn dirpath fs
            ⟨st1.files, st1.consecutive_errors + 1, st1.checks⟩

/-- The outer `for dirpath, dirs, filenames in os.walk(...)` loop: check
    cancellation before each directory (`break` on cancel), raise the
    transport failure when `consecutive_errors >= 10`, then process the
    directory's files. -/
def scanDirs {ρ : Type} (cancel : Nat → Bool) (extensions : List PyStr)
    (rowFn : PyStr → PyStr → Option ρ) :
    List (PyStr × List PyStr) → ScanSt ρ → Except ScanError (ScanSt ρ)
  | [], st => .ok st
  | (dp, fns) :: rest, st =>
    if cancel st.checks then .ok { st with checks := st.checks + 1 }
    else
      let st1 : ScanSt ρ :=
        ⟨st.files, st.consecutive_errors, st.checks + 1⟩
      if st1.consecutive_errors ≥ 10 then .error .network_or_permission_error
      else
        scanDirs cancel extensions rowFn rest
          (scanFiles cancel extensions rowFn dp fns st1)

/-- `scan_directory`: run the walk from an empty state and return the
    accumulated rows, or the transport failure. -/
def scan_directory {ρ : Type} (walkItems : List (PyStr × List PyStr))
    (extensions : List PyStr) (rowFn : PyStr → PyStr → Option ρ)
    (cancel : Nat → Bool) : Except ScanError (List ρ) :=
  match scanDirs cancel extensions rowFn walkItems ⟨[], 0, 0⟩ with
  | .ok st => .ok st.files
  | .error e => .error e

end Scanner

namespace Scanner

/-- Evaluation of the inner file loop when cancellation never fires and the
    row builder always succeeds: exactly the files passing the extension
    filter produce rows, in walk order. -/
theorem scanFiles_nocancel_total {ρ : Type} (extensions : List PyStr)
    (g : PyStr → PyStr → ρ) (dp : PyStr) (fns : List PyStr) (st : ScanSt ρ) :
    scanFiles (fun _ => false) extensions (fun d f => some (g d f)) dp fns st
      = ⟨st.files ++
          ((fns.filter (fun f => decide (extensions = [] ∨
              pyLower (pyExt f) ∈ extensions))).map (g dp)),
         if (fns.filter (fun f => decide (extensions = [] ∨
              pyLower (pyExt f) ∈ extensions))).isEmpty then
           st.consecutive_errors else 0,
         st.checks + fns.length⟩ := by
  induction fns generalizing st with
  | nil => simp [scanFiles]
  | cons f fs ih =>
    rw [scanFiles]
    simp only [Bool.false_eq_true, if_false]
    by_cases hf : extensions ≠ [] ∧ pyLower (pyExt f) ∉ extensions
    · rw [if_pos hf, ih]
      have hfilter : (f :: fs).filter (fun f => decide (extensions = [] ∨
          pyLower (pyExt f) ∈ extensions)) =
          fs.filter (fun f => decide (extensions = [] ∨
          pyLower (pyExt f) ∈ extensions)) := by
        rw [List.filter_cons]
        have : ¬ (extensions = [] ∨ pyLower (pyExt f) ∈ extensions) := by
          rintro (h | h)
          · exact hf.1 h
          · exact hf.2 h
        simp [this]
      rw [hfilter]
      simp only [ScanSt.mk.injEq, List.length_cons]
      refine ⟨by trivial, by trivial, by omega⟩
    · rw [if_neg hf, ih]
      have hpass : (extensions = [] ∨ pyLower (pyExt f) ∈ extensions) := by
        by_cases he : extensions = []
        · exact Or.inl he
        · by_cases hm : pyLower (pyExt f) ∈ extensions
          · exact Or.inr hm
          · exact absurd ⟨he, hm⟩ hf
      have hfilter : (f :: fs).filter (fun f => decide (extensions = [] ∨
          pyLower (pyExt f) ∈ extensions)) =
          f :: fs.filter (fun f => decide (extensions = [] ∨
          pyLower (pyExt f) ∈ extensions)) := by
        rw [List.filter_cons]
        simp [hpass]
      rw [hfilter]
      simp only [ScanSt.mk.injEq, List.map_cons, List.isEmpty_cons,
        List.length_cons, ite_self]
      refine ⟨by simp, by simp, by omega⟩

theorem list_flatMap_congr {α β : Type} (l : List α) (F G : α → List β)
    (h : ∀ p, F p = G p) : l.flatMap F = l.flatMap G := by
  induction l with
  | nil => rfl
  | cons p rest ih => rw [List.flatMap_cons, List.flatMap_cons, h p, ih]

/-- Evaluation of the outer directory loop under the same conditions. -/
theorem scanDirs_nocancel_total {ρ : Type} (extensions : List PyStr)
    (g : PyStr → PyStr → ρ) (items : List (PyStr × List PyStr))
    (st : ScanSt ρ) (h0 : st.consecutive_errors = 0) :
    ∃ stf, scanDirs (fun _ => false) extensions (fun d f => some (g d f))
        items st = .ok stf ∧
      stf.files = st.files ++ (items.flatMap (fun p =>
        (p.2.filter (fun f => decide (extensions = [] ∨
          pyLower (pyExt f) ∈ extensions))).map (g p.1))) ∧
      stf.consecutive_errors = 0 := by
  induction items generalizing st with
  | nil =>
    refine ⟨st, rfl, by simp, h0⟩
  | cons item rest ih =>
    obtain ⟨dp, fns⟩ := item
    rw [scanDirs]
    simp only [Bool.false_eq_true, if_false]
    rw [if_neg (by omega : ¬ (10 ≤ st.consecutive_errors))]
    rw [scanFiles_nocancel_total]
    have h0' : (if (fns.filter (fun f => decide (extensions = [] ∨
        pyLower (pyExt f) ∈ extensions))).isEmpty then
        st.consecutive_errors else 0) = 0 := by
      split <;> omega
    obtain ⟨stf, h1, h2, h3⟩ := ih
      ⟨st.files ++ ((fns.filter (fun f => decide (extensions = [] ∨
          pyLower (pyExt f) ∈ extensions))).map (g dp)),
        (if (fns.filter (fun f => decide (extensions = [] ∨
          pyLower (pyExt f) ∈ extensions))).isEmpty then
          st.consecutive_errors else 0),
        st.checks + 1 + fns.length⟩ (by simpa using h0')
    refine ⟨stf, h1, ?_, h3⟩
    rw [h2]
    simp only [List.flatMap_cons, List.append_assoc]

/-- C6: with a non-empty filter produced by `parse_extensions`, a scan in
    which cancellation never fires and every row build succeeds returns
    exactly one row per file whose lower-cased dot-prefixed extension is in
    the filter — every other file is skipped entirely; the comparison is
    case-insensitive in both the filename and the filter string, and every
    filter entry starts with the leading dot (as does every non-empty
    `os.path.splitext` extension being compared). -/
theorem scan_directory_extension_filter (ρ : Type)
    (items : List (PyStr × List PyStr)) (s : PyStr)
    (g : PyStr → PyStr → ρ) (hne : parse_extensions s ≠ []) :
    (scan_directory items (parse_extensions s) (fun d f => some (g d f))
        (fun _ => false) =
      .ok (items.flatMap (fun p =>
        (p.2.filter (fun f =>
          decide (pyLower (pyExt f) ∈ parse_extensions s))).map (g p.1)))) ∧
    (∀ (f₁ f₂ s₁ s₂ : PyStr), pyLower f₁ = pyLower f₂ →
      pyLower s₁ = pyLower s₂ →
      (pyLower (pyExt f₁) ∈ parse_extensions s₁ ↔
       pyLower (pyExt f₂) ∈ parse_extensions s₂)) ∧
    (∀ (e : PyStr), e ∈ parse_extensions s →
      pyStartswith ['.'] e = true) := by
  refine ⟨?_, ?_, fun e he => parse_extensions_entry_starts_with_dot s e he⟩
  · obtain ⟨stf, h1, h2, -⟩ := scanDirs_nocancel_total (parse_extensions s)
      g items ⟨[], 0, 0⟩ rfl
    unfold scan_directory
    rw [h1]
    dsimp only
    rw [h2]
    dsimp only
    simp only [List.nil_append]
    have hfix : ∀ p : PyStr × List PyStr,
        (p.2.filter (fun f => decide (parse_extensions s = [] ∨
            pyLower (pyExt f) ∈ parse_extensions s))).map (g p.1) =
        (p.2.filter (fun f =>
            decide (pyLower (pyExt f) ∈ parse_extensions s))).map (g p.1) := by
      intro p
      congr 1
      apply List.filter_congr
      intro f _
      simp only [decide_eq_decide]
      constructor
      · rintro (h | h)
        · exact absurd h hne
        · exact h
      · exact Or.inr
    rw [list_flatMap_congr items _ _ hfix]
  · intro f₁ f₂ s₁ s₂ hf hs
    have e1 : pyLower (pyExt f₁) = pyLower (pyExt f₂) := by
      rw [← pyExt_pyLower, ← pyExt_pyLower, hf]
    have e2 : parse_extensions s₁ = parse_extensions s₂ := by
      rw [← parse_extensions_pyLower s₁, ← parse_extensions_pyLower s₂, hs]
    rw [e1, e2]

end Scanner

namespace Scanner

theorem scan_directory_extension_filter_witness :
    scan_directory [("d".toList, ["a.txt".toList, "b.PDF".toList])]
        (parse_extensions ".pdf".toList)
        (fun d f => some ((d, f) : PyStr × PyStr)) (fun _ => false) =
      .ok [("d".toList, "b.PDF".toList)] := by
  have h := (scan_directory_extension_filter (PyStr × PyStr)
    [("d".toList, ["a.txt".toList, "b.PDF".toList])] (".pdf".toList)
    (fun d f => (d, f)) (by decide)).1
  rw [h]
  rfl

/-- C7 counterexample: ten consecutive per-file errors confined to the last
    (here: only) visited directory do not abort the scan.  The
    consecutive-error counter reaches 10, yet `scan_directory` completes
    normally and returns the partial (empty) row list instead of raising. -/
theorem scanDirs_ten_errors_in_last_directory_no_abort :
    scanDirs (fun _ => false) [] (fun _ _ => (none : Option Nat))
        [("d".toList, ["f0".toList, "f1".toList, "f2".toList, "f3".toList,
          "f4".toList, "f5".toList, "f6".toList, "f7".toList, "f8".toList,
          "f9".toList])] ⟨[], 0, 0⟩ = .ok ⟨[], 10, 11⟩ ∧
    scan_directory [("d".toList, ["f0".toList, "f1".toList, "f2".toList,
        "f3".toList, "f4".toList, "f5".toList, "f6".toList, "f7".toList,
        "f8".toList, "f9".toList])] [] (fun _ _ => (none : Option Nat))
        (fun _ => false) = .ok [] := by
  constructor
  · rfl
  · rfl

/-- C7 amended: the consecutive-error threshold is only checked at the top
    of each directory iteration, after the cancellation check.  Whenever the
    walk reaches a further directory while 10 or more consecutive per-file
    errors have accumulated (and cancellation does not fire first), the scan
    aborts with the transport-level `ConnectionError`, re-raised as a
    generic scan-aborting error — distinct from a per-file skip.  Errors in
    the final visited directory never trigger the abort. -/
theorem scanDirs_transport_failure_at_next_directory :
    (∀ (ρ : Type) (cancel : Nat → Bool) (extensions : List PyStr)
       (rowFn : PyStr → PyStr → Option ρ) (dp : PyStr) (fns : List PyStr)
       (rest : List (PyStr × List PyStr)) (st : ScanSt ρ),
       10 ≤ st.consecutive_errors → cancel st.checks = false →
       scanDirs cancel extensions rowFn ((dp, fns) :: rest) st =
         .error .network_or_permission_error) ∧
    scan_directory [("d".toList, ["f0".toList, "f1".toList, "f2".toList,
        "f3".toList, "f4".toList, "f5".toList, "f6".toList, "f7".toList,
        "f8".toList, "f9".toList]), ("e".toList, ["g".toList])] []
        (fun _ _ => (none : Option Nat)) (fun _ => false) =
      .error .network_or_permission_error := by
  constructor
  · intro ρ cancel extensions rowFn dp fns rest st h10 hc
    unfold scanDirs
    simp only [hc, Bool.false_eq_true, if_false]
    dsimp only
    rw [if_pos h10]
  · rfl

theorem scanDirs_transport_failure_at_next_directory_witness :
    scanDirs (fun _ => false) [] (fun _ _ => (none : Option Nat))
        [("e".toList, [])] (⟨[], 10, 0⟩ : ScanSt Nat) =
      .error .network_or_permission_error :=
  scanDirs_transport_failure_at_next_directory.1 Nat (fun _ => false) []
    (fun _ _ => none) ("e".toList) [] [] ⟨[], 10, 0⟩ (by decide) rfl

theorem scanFiles_total_consec_le {ρ : Type} (cancel : Nat → Bool)
    (extensions : List PyStr) (g : PyStr → PyStr → ρ) (dp : PyStr)
    (fns : List PyStr) (st : ScanSt ρ) :
    (scanFiles cancel extensions (fun d f => some (g d f)) dp fns
        st).consecutive_errors ≤ st.consecutive_errors := by
  induction fns generalizing st with
  | nil => exact le_refl _
  | cons f fs ih =>
    rw [scanFiles]
    by_cases hc : cancel st.checks = true
    · rw [if_pos hc]
    · rw [if_neg hc]
      by_cases hf : extensions ≠ [] ∧ pyLower (pyExt f) ∉ extensions
      · rw [if_pos hf]
        exact ih _
      · rw [if_neg hf]
        exact le_trans (ih _) (Nat.zero_le _)

theorem scanDirs_total_ok {ρ : Type} (cancel : Nat → Bool)
    (extensions : List PyStr) (g : PyStr → PyStr → ρ)
    (items : List (PyStr × List PyStr)) (st : ScanSt ρ)
    (h : st.consecutive_errors < 10) :
    ∃ stf, scanDirs cancel extensions (fun d f => some (g d f)) items st =
      .ok stf := by
  induction items generalizing st with
  | nil => exact ⟨st, rfl⟩
  | cons item rest ih =>
    obtain ⟨dp, fns⟩ := item
    rw [scanDirs]
    by_cases hc : cancel st.checks = true
    · rw [if_pos hc]
      exact ⟨_, rfl⟩
    · rw [if_neg hc]
      rw [if_neg (by dsimp only; omega)]
      exact ih _ (lt_of_le_of_lt
        (scanFiles_total_consec_le cancel extensions g dp fns _) h)

/-- C8: the scanner polls the cancellation predicate before each directory
    and before each file.  Cancellation raises no exception: when every
    per-file row build succeeds, a scan returns `ok` for every cancellation
    predicate; a predicate that is already true at the very first check
    stops the scan with the rows accumulated so far (none); and for a
    directory of 10 files with a predicate that becomes true at the 3rd
    check, the scan returns normally with strictly fewer than 10 records
    (exactly the one row built before the predicate turned true). -/
theorem scan_directory_cancellation_stops_scan :
    (∀ (ρ : Type) (items : List (PyStr × List PyStr))
       (extensions : List PyStr) (g : PyStr → PyStr → ρ)
       (cancel : Nat → Bool),
       ∃ rows, scan_directory items extensions (fun d f => some (g d f))
         cancel = .ok rows) ∧
    (∀ (ρ : Type) (items : List (PyStr × List PyStr))
       (extensions : List PyStr) (rowFn : PyStr → PyStr → Option ρ)
       (cancel : Nat → Bool), cancel 0 = true →
       scan_directory items extensions rowFn cancel = .ok []) ∧
    (∃ rows : List (PyStr × PyStr),
       scan_directory [("d".toList, ["f0".toList, "f1".toList, "f2".toList,
           "f3".toList, "f4".toList, "f5".toList, "f6".toList, "f7".toList,
           "f8".toList, "f9".toList])] []
         (fun d f => some ((d, f) : PyStr × PyStr))
         (fun k => decide (2 ≤ k)) = .ok rows ∧
       rows.length < 10) := by
  refine ⟨?_, ?_, ?_⟩
  · intro ρ items extensions g cancel
    obtain ⟨stf, h⟩ := scanDirs_total_ok cancel extensions g items ⟨[], 0, 0⟩
      (by dsimp only; omega)
    refine ⟨stf.files, ?_⟩
    unfold scan_directory
    rw [h]
  · intro ρ items extensions rowFn cancel hc
    cases items with
    | nil => rfl
    | cons item rest =>
      obtain ⟨dp, fns⟩ := item
      unfold scan_directory scanDirs
      simp only [hc]
      rfl
  · exact ⟨[("d".toList, "f0".toList)], rfl, by simp⟩

theorem scan_directory_cancellation_stops_scan_witness :
    scan_directory [("d".toList, ["x".toList])] []
      (fun _ _ => some (0 : Nat)) (fun _ => true) = .ok [] :=
  scan_directory_cancellation_stops_scan.2.1 Nat
    [("d".toList, ["x".toList])] [] (fun _ _ => some 0) (fun _ => true) rfl

end Scanner

/-! ## `includes/duplicate_detector.py` — the `DuplicateDetector` class

The filesystem is a map from a path to `Option` of its byte contents
(`none` = `os.path.exists` is false / every read raises).  MD5 (an external
library primitive) is an abstract digest function `md5 : List Nat → List
Nat`; the spec treats hash collisions as out of scope ("collision risk
acceptable"), which is expressed by an injectivity hypothesis where a
theorem needs it.  `calculate_hash` streams the whole file in 8 KiB chunks,
and the concatenation of the chunks is the whole contents, so it is md5 of
the full byte list. -/

namespace Detector

/-- A row handed to the detector: the source reads only the dict's
    `'FullPath'` key and carries the rest of the row through untouched;
    `payload` stands for those remaining fields. -/
structure FileInfo where
  FullPath : PyStr
  payload : Nat
deriving DecidableEq, Repr

/-- A filesystem: byte contents per path. -/
abbrev FS := PyStr → Option (List Nat)

/-- The result of `calculate_quick_hash`: the distinguished Python string
    `'empty_file'` for empty files, otherwise a hex digest (a 32-character
    digest can never equal `'empty_file'`, hence the separate constructor). -/
inductive QuickDigest where
  | empty_file
  | digest (d : List Nat)
deriving DecidableEq, Repr

/-- `calculate_hash(filepath)`: MD5 over the whole contents; `None` when
    the file cannot be read. -/
def calculate_hash (md5 : List Nat → List Nat) (fs : FS) (p : PyStr) :
    Option (List Nat) :=
  (fs p).map md5

/-- `str(file_size).encode()`: the decimal digits of the size as bytes. -/
def encodeSize (n : Nat) : List Nat :=
  (Nat.toDigits 10 n).map Char.toNat

/-- The quick fingerprint of given byte contents `c`: the `'empty_file'`
    marker for size 0, otherwise md5 of the first `min(1024, size)` bytes,
    then the last 1024 bytes when `size > 2048`, then the encoded size. -/
def quickOf (md5 : List Nat → List Nat) (c : List Nat) : QuickDigest :=
  if c.length = 0 then .empty_file
  else .digest (md5 (c.take (min 1024 c.length) ++
      (if c.length > 1024 * 2 then c.drop (c.length - 1024) else []) ++
      encodeSize c.length))

/-- `calculate_quick_hash(filepath)` with the default `sample_size = 1024`:
    the quick fingerprint of the contents; `None` when the file cannot be
    read. -/
def calculate_quick_hash (md5 : List Nat → List Nat) (fs : FS) (p : PyStr) :
    Option QuickDigest :=
  (fs p).map (quickOf md5)

/-- `d[k].append(v)` on a `defaultdict(list)`: append to the bucket in
    place, or create the bucket at the end. -/
def dpush {κ β : Type} [DecidableEq κ] :
    List (κ × List β) → κ → β → List (κ × List β)
  | [], k, v => [(k, [v])]
  | (k', vs) :: t, k, v =>
    if k' = k then (k', vs ++ [v]) :: t else (k', vs) :: dpush t k v

/-- The common loop shape of the three grouping passes in
    `find_duplicates`: fold over the records, compute a key for each
    (`none` = the record is skipped, matching a falsy/failed hash or a
    missing file), and append the record to that key's bucket. -/
def groupFold {κ α : Type} [DecidableEq κ] (keyFn : α → Option κ)
    (g : List α) (acc : List (κ × List α)) : List (κ × List α) :=
  g.foldl (fun acc fi =>
    match keyFn fi with
    | some k => dpush acc k fi
    | none => acc) acc

/-- The key used by step 1 of `find_duplicates`: skip records with a falsy
    `'FullPath'` or a non-existing path, else group by `os.path.getsize`. -/
def sizeKey (fs : FS) (fi : FileInfo) : Option Nat :=
  if fi.FullPath = [] then none else (fs fi.FullPath).map List.length

/-- Step 1 of `find_duplicates`: `size_groups`. -/
def size_groups (fs : FS) (files : List FileInfo) :
    List (Nat × List FileInfo) :=
  groupFold (sizeKey fs) files []

/-- The per-size-group `quick_hash_groups` dict of the quick-hash branch. -/
def quick_hash_groups (md5 : List Nat → List Nat) (fs : FS)
    (group : List FileInfo) : List (QuickDigest × List FileInfo) :=
  groupFold (fun fi => calculate_quick_hash md5 fs fi.FullPath) group []

/-- Step 2 of `find_duplicates`: the `file_hashes` index.  Size groups of
    fewer than two records are skipped.  With `use_quick_hash` the group is
    partitioned by quick hash and only quick-hash groups of two or more
    records are full-hashed; otherwise every record of the size group is
    full-hashed. -/
def file_hashes (md5 : List Nat → List Nat) (fs : FS) (useQuick : Bool)
    (files : List FileInfo) : List (List Nat × List FileInfo) :=
  (size_groups fs files).foldl (fun acc p =>
    if p.2.length < 2 then acc
    else if useQuick then
      (quick_hash_groups md5 fs p.2).foldl (fun acc q =>
        if q.2.length < 2 then acc
        else groupFold (fun fi => calculate_hash md5 fs fi.FullPath) q.2 acc)
        acc
    else groupFold (fun fi => calculate_hash md5 fs fi.FullPath) p.2 acc) []

/-- One duplicate group as built in step 3 of `find_duplicates`. -/
structure DupGroup where
  hash : List Nat
  count : Nat
  files : List FileInfo
  total_size : Nat
deriving DecidableEq, Repr

/-- `sum(os.path.getsize(f['FullPath']) for f in file_list if
    os.path.exists(f['FullPath']))`. -/
def group_total_size (fs : FS) (l : List FileInfo) : Nat :=
  (l.filterMap (fun fi => (fs fi.FullPath).map List.length)).sum

/-- Stable insertion of a group into a list sorted descending by `count`:
    an incoming (earlier) group goes before later groups of equal count. -/
def insertByCountDesc (g : DupGroup) : List DupGroup → List DupGroup
  | [] => [g]
  | h :: t => if g.count < h.count then h :: insertByCountDesc g t
              else g :: h :: t

/-- `self.duplicates.sort(key=lambda x: x['count'], reverse=True)`: a
    stable sort descending by member count (Python's sort is stable; any
    stable algorithm produces the same list). -/
def sortByCountDesc : List DupGroup → List DupGroup
  | [] => []
  | g :: rest => insertByCountDesc g (sortByCountDesc rest)

/-- `find_duplicates(files, use_quick_hash)`: build the hash index, keep
    the buckets with at least two records as duplicate groups, and sort
    them by member count, most duplicates first. -/
def find_duplicates (md5 : List Nat → List Nat) (fs : FS)
    (files : List FileInfo) (useQuick : Bool) : List DupGroup :=
  sortByCountDesc ((file_hashes md5 fs useQuick files).filterMap (fun p =>
    if 1 < p.2.length then
      some ⟨p.1, p.2.length, p.2, group_total_size fs p.2⟩
    else none))

/-- The dict returned by `get_duplicate_stats`.  `wasted_space` is the
    Python float sum truncated by `int(...)`; floats are modelled as exact
    rationals, and the summands are non-negative, so `int` truncation is
    the floor. -/
structure DupStats where
  duplicate_groups : Nat
  duplicate_files : Int
  wasted_space : Int
  largest_group : Nat
deriving DecidableEq, Repr

/-- `get_duplicate_stats()` evaluated on a duplicates list. -/
def get_duplicate_stats (dups : List DupGroup) : DupStats :=
  if dups = [] then ⟨0, 0, 0, 0⟩
  else
    ⟨dups.length,
     (dups.map (fun g => (g.count : Int) - 1)).sum,
     ((dups.map (fun g =>
         ((g.count : ℚ) - 1) * ((g.total_size : ℚ) / (g.count : ℚ)))).sum).floor,
     (dups.map (fun g => g.count)).foldr max 0⟩

end Detector

namespace Detector

theorem mem_insertByCountDesc (g x : DupGroup) (l : List DupGroup) :
    g ∈ insertByCountDesc x l ↔ g = x ∨ g ∈ l := by
  induction l with
  | nil => simp [insertByCountDesc]
  | cons h t ih =>
    rw [insertByCountDesc]
    by_cases hc : x.count < h.count
    · rw [if_pos hc]
      rw [List.mem_cons, ih, List.mem_cons]
      tauto
    · rw [if_neg hc]
      simp only [List.mem_cons]

theorem mem_sortByCountDesc (g : DupGroup) (l : List DupGroup) :
    g ∈ sortByCountDesc l ↔ g ∈ l := by
  induction l with
  | nil => simp [sortByCountDesc]
  | cons h t ih =>
    rw [sortByCountDesc, mem_insertByCountDesc, ih, List.mem_cons]

theorem find_duplicates_group_shape (md5 : List Nat → List Nat) (fs : FS)
    (files : List FileInfo) (q : Bool) (g : DupGroup)
    (hg : g ∈ find_duplicates md5 fs files q) :
    g.count = g.files.length ∧ 2 ≤ g.count ∧
    g.total_size = group_total_size fs g.files := by
  unfold find_duplicates at hg
  rw [mem_sortByCountDesc, List.mem_filterMap] at hg
  obtain ⟨p, -, hp⟩ := hg
  by_cases h2 : 1 < p.2.length
  · rw [if_pos h2] at hp
    cases hp
    exact ⟨rfl, by dsimp only; omega, rfl⟩
  · rw [if_neg h2] at hp
    cases hp

theorem foldr_max_is_max (l : List Nat) :
    (∀ x ∈ l, x ≤ l.foldr max 0) ∧ (l ≠ [] → ∃ x ∈ l, l.foldr max 0 = x) := by
  induction l with
  | nil => exact ⟨by simp, fun h => absurd rfl h⟩
  | cons a t ih =>
    constructor
    · intro x hx
      rw [List.mem_cons] at hx
      rw [List.foldr_cons]
      rcases hx with rfl | hx
      · exact le_max_left _ _
      · exact le_trans (ih.1 x hx) (le_max_right _ _)
    · intro _
      rw [List.foldr_cons]
      cases ht : t with
      | nil => exact ⟨a, List.mem_cons_self a _, by simp⟩
      | cons b r =>
        obtain ⟨x, hx, hfx⟩ := ih.2 (by rw [ht]; exact List.cons_ne_nil b r)
        rw [← ht]
        by_cases hax : t.foldr max 0 ≤ a
        · exact ⟨a, List.mem_cons_self a _, by omega⟩
        · exact ⟨x, List.mem_cons_of_mem a hx, by rw [← hfx]; omega⟩

/-- The three files of the spec's concrete duplicate-detection property:
    `A` and `B` byte-identical, `C` different (same sizes, so the size
    pre-filter keeps all three). -/
def fsABC : FS := fun p =>
  if p = "A".toList then some [1, 2, 3]
  else if p = "B".toList then some [1, 2, 3]
  else if p = "C".toList then some [4, 5, 6]
  else none

/-- The corresponding row-set. -/
def filesABC : List FileInfo :=
  [⟨"A".toList, 0⟩, ⟨"B".toList, 1⟩, ⟨"C".toList, 2⟩]

/-- C9: on every group list produced by a detection run,
    `get_duplicate_stats` returns `duplicate_files` equal to the sum over
    groups of (memberCount − 1), `wasted_space` equal to the sum over groups
    of (memberCount − 1) × (groupTotalSize / memberCount) truncated to an
    integer, and `largest_group` equal to the maximum member count (0 when
    there are no groups).  In particular, for files {A, B, C} with A and B
    byte-identical and C different, the run yields one group of {A, B},
    `duplicate_files = 1` and `wasted_space = size(A) = 3`. -/
theorem get_duplicate_stats_spec :
    (∀ (md5 : List Nat → List Nat) (fs : FS) (files : List FileInfo)
       (q : Bool),
      (get_duplicate_stats (find_duplicates md5 fs files q)).duplicate_files
        = ((find_duplicates md5 fs files q).map
            (fun g => (g.files.length : Int) - 1)).sum ∧
      (get_duplicate_stats (find_duplicates md5 fs files q)).wasted_space
        = (((find_duplicates md5 fs files q).map
            (fun g => ((g.files.length : ℚ) - 1) *
              ((g.total_size : ℚ) / (g.files.length : ℚ)))).sum).floor ∧
      (∀ g ∈ find_duplicates md5 fs files q, g.count ≤
        (get_duplicate_stats (find_duplicates md5 fs files q)).largest_group)
        ∧
      (find_duplicates md5 fs files q ≠ [] →
        ∃ g ∈ find_duplicates md5 fs files q,
          (get_duplicate_stats
            (find_duplicates md5 fs files q)).largest_group = g.count) ∧
      (find_duplicates md5 fs files q = [] →
        get_duplicate_stats (find_duplicates md5 fs files q) = ⟨0, 0, 0, 0⟩))
    ∧
    (find_duplicates id fsABC filesABC true =
      [⟨[1, 2, 3], 2, [⟨"A".toList, 0⟩, ⟨"B".toList, 1⟩], 6⟩] ∧
     (get_duplicate_stats
        (find_duplicates id fsABC filesABC true)).duplicate_files = 1 ∧
     (get_duplicate_stats
        (find_duplicates id fsABC filesABC true)).wasted_space = 3 ∧
     (get_duplicate_stats
        (find_duplicates id fsABC filesABC true)).largest_group = 2) := by
  constructor
  · intro md5 fs files q
    have hshape := find_duplicates_group_shape md5 fs files q
    refine ⟨?_, ?_, ?_, ?_, ?_⟩
    · by_cases h : find_duplicates md5 fs files q = []
      · rw [h]; rfl
      · unfold get_duplicate_stats
        rw [if_neg h]
        exact congrArg List.sum (List.map_congr_left
          (fun g hg => by rw [(hshape g hg).1]))
    · by_cases h : find_duplicates md5 fs files q = []
      · rw [h]; rfl
      · unfold get_duplicate_stats
        rw [if_neg h]
        refine congrArg Rat.floor (congrArg List.sum
          (List.map_congr_left (fun g hg => by rw [(hshape g hg).1])))
    · intro g hg
      by_cases h : find_duplicates md5 fs files q = []
      · rw [h] at hg; cases hg
      · unfold get_duplicate_stats
        rw [if_neg h]
        exact (foldr_max_is_max _).1 g.count
          (List.mem_map_of_mem (fun g => g.count) hg)
    · intro h
      obtain ⟨x, hx, hfx⟩ := (foldr_max_is_max
        ((find_duplicates md5 fs files q).map (fun g => g.count))).2
        (by simpa using h)
      rw [List.mem_map] at hx
      obtain ⟨g, hg, rfl⟩ := hx
      refine ⟨g, hg, ?_⟩
      unfold get_duplicate_stats
      rw [if_neg h]
      exact hfx
    · intro h
      rw [h]
      rfl
  · have hfind : find_duplicates id fsABC filesABC true =
        [⟨[1, 2, 3], 2, [⟨"A".toList, 0⟩, ⟨"B".toList, 1⟩], 6⟩] := by decide
    refine ⟨hfind, ?_, ?_, ?_⟩
    · rw [hfind]; rfl
    · rw [hfind]
      unfold get_duplicate_stats
      rw [if_neg (by simp)]
      norm_num [Rat.floor]
    · rw [hfind]; rfl

theorem get_duplicate_stats_spec_witness :
    ∃ g ∈ find_duplicates id fsABC filesABC true,
      (get_duplicate_stats
        (find_duplicates id fsABC filesABC true)).largest_group = g.count :=
  ((get_duplicate_stats_spec.1 id fsABC filesABC true).2.2.2.1)
    (by decide)

end Detector

namespace Detector

theorem dget_dpush {κ β : Type} [DecidableEq κ] (l : List (κ × List β))
    (k k₀ : κ) (v : β) :
    dget (dpush l k v) k₀ =
      if k = k₀ then some ((dget l k).getD [] ++ [v]) else dget l k₀ := by
  induction l with
  | nil =>
    show dget [(k, [v])] k₀ = _
    by_cases h : k = k₀ <;> simp [h]
  | cons p t ih =>
    obtain ⟨k', vs⟩ := p
    show dget (if k' = k then (k', vs ++ [v]) :: t
        else (k', vs) :: dpush t k v) k₀ = _
    by_cases h1 : k' = k
    · rw [if_pos h1]
      subst h1
      by_cases h2 : k' = k₀ <;> simp [h2]
    · rw [if_neg h1]
      by_cases h2 : k' = k₀
      · subst h2
        rw [dget_cons, if_pos rfl, if_neg (fun hk => h1 hk.symm),
          dget_cons, if_pos rfl]
      · simp only [dget_cons, ih, if_neg h1, if_neg h2]

theorem dkeys_dpush {κ β : Type} [DecidableEq κ] (l : List (κ × List β))
    (k : κ) (v : β) :
    dkeys (dpush l k v) =
      if k ∈ dkeys l then dkeys l else dkeys l ++ [k] := by
  induction l with
  | nil => simp [dpush]
  | cons p t ih =>
    obtain ⟨k', vs⟩ := p
    show dkeys (if k' = k then (k', vs ++ [v]) :: t
        else (k', vs) :: dpush t k v) = _
    by_cases h1 : k' = k
    · rw [if_pos h1]
      subst h1
      rw [if_pos (by simp), dkeys_cons, dkeys_cons]
    · rw [if_neg h1, dkeys_cons, ih]
      by_cases h2 : k ∈ dkeys t
      · rw [if_pos h2, if_pos (by simp [h2])]
        rfl
      · rw [if_neg h2, if_neg (by
          simp only [dkeys_cons, List.mem_cons]
          rintro (hk | hk)
          · exact h1 hk.symm
          · exact h2 hk)]
        simp

theorem dkeys_nodup_dpush {κ β : Type} [DecidableEq κ]
    (l : List (κ × List β)) (k : κ) (v : β) (h : (dkeys l).Nodup) :
    (dkeys (dpush l k v)).Nodup := by
  rw [dkeys_dpush]
  by_cases hk : k ∈ dkeys l
  · rwa [if_pos hk]
  · rw [if_neg hk, List.nodup_append]
    exact ⟨h, List.nodup_singleton k, by
      intro a ha hb
      rw [List.mem_singleton] at hb
      subst hb
      exact hk ha⟩

/-- Combining an existing optional bucket with newly appended members:
    shared result shape of all the grouping folds. -/
def obind {β : Type} (o : Option (List β)) (add : List β) :
    Option (List β) :=
  match o, add with
  | none, [] => none
  | o, add => some (o.getD [] ++ add)

theorem obind_none_nil {β : Type} : obind (none : Option (List β)) [] = none :=
  rfl

theorem obind_some {β : Type} (vs add : List β) :
    obind (some vs) add = some (vs ++ add) := by
  cases add <;> rfl

theorem obind_none_cons {β : Type} (x : β) (xs : List β) :
    obind (none : Option (List β)) (x :: xs) = some (x :: xs) := rfl

theorem obind_obind {β : Type} (o : Option (List β)) (a b : List β) :
    obind (obind o a) b = obind o (a ++ b) := by
  cases o with
  | none =>
    cases a with
    | nil => rfl
    | cons x xs =>
      rw [obind_none_cons, obind_some]
      cases b with
      | nil => simp [obind_none_cons]
      | cons y ys => simp [obind_none_cons]
  | some vs =>
    rw [obind_some, obind_some, obind_some, List.append_assoc]

theorem obind_nil {β : Type} (o : Option (List β)) : obind o [] = o := by
  cases o with
  | none => rfl
  | some vs => rw [obind_some, List.append_nil]

theorem groupFold_dget {κ α : Type} [DecidableEq κ] (keyFn : α → Option κ)
    (g : List α) (acc : List (κ × List α)) (k : κ) :
    dget (groupFold keyFn g acc) k =
      obind (dget acc k) (g.filter (fun fi => decide (keyFn fi = some k))) := by
  induction g generalizing acc with
  | nil =>
    rw [List.filter_nil, obind_nil]
    rfl
  | cons fi rest ih =>
    show dget (groupFold keyFn rest
      (match keyFn fi with
       | some k' => dpush acc k' fi
       | none => acc)) k = _
    cases hk : keyFn fi with
    | none =>
      rw [ih, List.filter_cons]
      simp only [hk]
      rw [if_neg (by simp)]
    | some k' =>
      rw [ih, List.filter_cons]
      by_cases h : k' = k
      · subst h
        rw [dget_dpush, if_pos rfl]
        simp only [hk, decide_eq_true_eq]
        rw [if_pos trivial]
        cases ho : dget acc k' with
        | none =>
          rw [obind_none_cons, obind_some]
          rfl
        | some vs =>
          rw [obind_some, obind_some, List.append_assoc]
          rfl
      · rw [dget_dpush, if_neg h]
        simp only [hk, decide_eq_true_eq]
        rw [if_neg (by intro hc; cases hc; exact h rfl)]

theorem groupFold_nodup {κ α : Type} [DecidableEq κ] (keyFn : α → Option κ)
    (g : List α) (acc : List (κ × List α)) (h : (dkeys acc).Nodup) :
    (dkeys (groupFold keyFn g acc)).Nodup := by
  induction g generalizing acc with
  | nil => exact h
  | cons fi rest ih =>
    show (dkeys (groupFold keyFn rest
      (match keyFn fi with
       | some k' => dpush acc k' fi
       | none => acc))).Nodup
    cases hk : keyFn fi with
    | none => exact ih acc h
    | some k' => exact ih _ (dkeys_nodup_dpush acc k' fi h)

theorem dget_eq_some_of_mem_nodup {κ β : Type} [DecidableEq κ]
    (l : List (κ × β)) (h : (dkeys l).Nodup) (k : κ) (v : β)
    (hm : (k, v) ∈ l) : dget l k = some v := by
  induction l with
  | nil => cases hm
  | cons p t ih =>
    obtain ⟨k', v'⟩ := p
    rw [dkeys_cons, List.nodup_cons] at h
    rw [List.mem_cons] at hm
    rcases hm with hm | hm
    · cases hm
      rw [dget_cons, if_pos rfl]
    · rw [dget_cons]
      have : k' ≠ k := by
        rintro rfl
        exact h.1 (by simpa [dkeys] using List.mem_map_of_mem Prod.fst hm)
      rw [if_neg this]
      exact ih h.2 hm

theorem mem_of_dget_eq_some {κ β : Type} [DecidableEq κ]
    (l : List (κ × β)) (k : κ) (v : β) (h : dget l k = some v) :
    (k, v) ∈ l := by
  induction l with
  | nil => cases h
  | cons p t ih =>
    obtain ⟨k', v'⟩ := p
    rw [dget_cons] at h
    by_cases hk : k' = k
    · rw [if_pos hk] at h
      cases h
      subst hk
      exact List.mem_cons_self _ _
    · rw [if_neg hk] at h
      exact List.mem_cons_of_mem _ (ih h)

end Detector

namespace Detector

theorem groupFold_entry {κ α : Type} [DecidableEq κ] (keyFn : α → Option κ)
    (g : List α) (k : κ) (vs : List α)
    (hm : (k, vs) ∈ groupFold keyFn g []) :
    vs = g.filter (fun fi => decide (keyFn fi = some k)) ∧ vs ≠ [] := by
  have hnd : (dkeys (groupFold keyFn g [])).Nodup :=
    groupFold_nodup keyFn g [] (by simp)
  have hd := dget_eq_some_of_mem_nodup _ hnd k vs hm
  rw [groupFold_dget, dget_nil] at hd
  cases hfil : g.filter (fun fi => decide (keyFn fi = some k)) with
  | nil =>
    rw [hfil, obind_none_nil] at hd
    cases hd
  | cons x xs =>
    rw [hfil, obind_none_cons] at hd
    cases hd
    exact ⟨rfl, by simp⟩

theorem groupFold_entry_mem {κ α : Type} [DecidableEq κ] (keyFn : α → Option κ)
    (g : List α) (k : κ)
    (hne : g.filter (fun fi => decide (keyFn fi = some k)) ≠ []) :
    (k, g.filter (fun fi => decide (keyFn fi = some k))) ∈
      groupFold keyFn g [] := by
  apply mem_of_dget_eq_some
  rw [groupFold_dget, dget_nil]
  cases hfil : g.filter (fun fi => decide (keyFn fi = some k)) with
  | nil => exact absurd hfil hne
  | cons x xs =>
    rw [obind_none_cons]

theorem flatMap_eq_nil_of_forall {α β : Type} (l : List α) (F : α → List β)
    (h : ∀ e ∈ l, F e = []) : l.flatMap F = [] := by
  induction l with
  | nil => rfl
  | cons e rest ih =>
    rw [List.flatMap_cons, h e (List.mem_cons_self e rest),
      List.nil_append]
    exact ih (fun x hx => h x (List.mem_cons_of_mem e hx))

theorem flatMap_single {κ β γ : Type} [DecidableEq κ]
    (entries : List (κ × β)) (F : κ × β → List γ)
    (hnd : (dkeys entries).Nodup) (k₀ : κ)
    (hz : ∀ e ∈ entries, e.1 ≠ k₀ → F e = []) :
    entries.flatMap F =
      (match dget entries k₀ with
       | some v => F (k₀, v)
       | none => []) := by
  induction entries with
  | nil => rfl
  | cons e rest ih =>
    obtain ⟨k', v'⟩ := e
    rw [dkeys_cons, List.nodup_cons] at hnd
    rw [List.flatMap_cons, dget_cons]
    by_cases hk : k' = k₀
    · subst hk
      rw [if_pos rfl]
      have hrest : rest.flatMap F = [] := by
        apply flatMap_eq_nil_of_forall
        intro x hx
        apply hz x (List.mem_cons_of_mem _ hx)
        intro hxk
        exact hnd.1 (hxk ▸
          (List.mem_map_of_mem Prod.fst hx : x.1 ∈ List.map Prod.fst rest))
      rw [hrest, List.append_nil]
    · rw [if_neg hk,
        hz (k', v') (List.mem_cons_self _ _) hk, List.nil_append]
      exact ih hnd.2 (fun x hx hxk => hz x (List.mem_cons_of_mem _ hx) hxk)

theorem quickPass_dget (md5 : List Nat → List Nat) (fs : FS) (h : List Nat)
    (entries : List (QuickDigest × List FileInfo))
    (acc : List (List Nat × List FileInfo)) :
    dget (entries.foldl (fun acc q =>
        if q.2.length < 2 then acc
        else groupFold (fun fi => calculate_hash md5 fs fi.FullPath) q.2 acc)
      acc) h =
    obind (dget acc h) (entries.flatMap (fun q =>
      if q.2.length < 2 then []
      else q.2.filter (fun fi =>
        decide (calculate_hash md5 fs fi.FullPath = some h)))) := by
  induction entries generalizing acc with
  | nil =>
    rw [List.foldl_nil, List.flatMap_nil, obind_nil]
  | cons q rest ih =>
    rw [List.foldl_cons, List.flatMap_cons]
    by_cases hq : q.2.length < 2
    · rw [if_pos hq, if_pos hq, ih, List.nil_append]
    · rw [if_neg hq, if_neg hq, ih, groupFold_dget, obind_obind]

theorem file_hashes_fold_dget (md5 : List Nat → List Nat) (fs : FS)
    (useQuick : Bool) (h : List Nat) (sgs : List (Nat × List FileInfo))
    (acc : List (List Nat × List FileInfo)) :
    dget (sgs.foldl (fun acc p =>
        if p.2.length < 2 then acc
        else if useQuick then
          (quick_hash_groups md5 fs p.2).foldl (fun acc q =>
            if q.2.length < 2 then acc
            else groupFold (fun fi => calculate_hash md5 fs fi.FullPath) q.2
              acc) acc
        else groupFold (fun fi => calculate_hash md5 fs fi.FullPath) p.2 acc)
      acc) h =
    obind (dget acc h) (sgs.flatMap (fun p =>
      if p.2.length < 2 then []
      else if useQuick then
        (quick_hash_groups md5 fs p.2).flatMap (fun q =>
          if q.2.length < 2 then []
          else q.2.filter (fun fi =>
            decide (calculate_hash md5 fs fi.FullPath = some h)))
      else p.2.filter (fun fi =>
        decide (calculate_hash md5 fs fi.FullPath = some h)))) := by
  induction sgs generalizing acc with
  | nil =>
    rw [List.foldl_nil, List.flatMap_nil, obind_nil]
  | cons p rest ih =>
    rw [List.foldl_cons, List.flatMap_cons]
    by_cases hp : p.2.length < 2
    · rw [if_pos hp, if_pos hp, ih, List.nil_append]
    · rw [if_neg hp, if_neg hp]
      cases useQuick with
      | true =>
        rw [if_pos rfl, if_pos rfl, ih, quickPass_dget, obind_obind]
      | false =>
        rw [if_neg (by simp), if_neg (by simp), ih, groupFold_dget,
          obind_obind]

theorem file_hashes_dget (md5 : List Nat → List Nat) (fs : FS)
    (useQuick : Bool) (files : List FileInfo) (h : List Nat) :
    dget (file_hashes md5 fs useQuick files) h =
    obind none ((size_groups fs files).flatMap (fun p =>
      if p.2.length < 2 then []
      else if useQuick then
        (quick_hash_groups md5 fs p.2).flatMap (fun q =>
          if q.2.length < 2 then []
          else q.2.filter (fun fi =>
            decide (calculate_hash md5 fs fi.FullPath = some h)))
      else p.2.filter (fun fi =>
        decide (calculate_hash md5 fs fi.FullPath = some h)))) := by
  have := file_hashes_fold_dget md5 fs useQuick h (size_groups fs files) []
  rw [dget_nil] at this
  exact this

end Detector

namespace Detector

theorem calculate_hash_eq_some_iff (md5 : List Nat → List Nat) (fs : FS)
    (p : PyStr) (h : List Nat) :
    calculate_hash md5 fs p = some h ↔
      ∃ c, fs p = some c ∧ md5 c = h := by
  cases hc : fs p <;> simp [calculate_hash, hc]

theorem calculate_quick_hash_of_content (md5 : List Nat → List Nat)
    (fs : FS) (p : PyStr) (c : List Nat) (hc : fs p = some c) :
    calculate_quick_hash md5 fs p = some (quickOf md5 c) := by
  simp [calculate_quick_hash, hc]

/-- The quick-hash pre-filter within one size group, seen per full-hash
    value `h`: the records it forwards to full hashing that hash to `h` are
    either exactly the records of the group hashing to `h`, or none of them;
    and as soon as at least two records of the group hash to `h`, they all
    survive the pre-filter (they share one quick-hash group of size ≥ 2). -/
theorem quick_pass_per_group (md5 : List Nat → List Nat)
    (hinj : Function.Injective md5) (fs : FS) (h : List Nat)
    (g : List FileInfo) :
    ((quick_hash_groups md5 fs g).flatMap (fun q =>
        if q.2.length < 2 then []
        else q.2.filter (fun fi =>
          decide (calculate_hash md5 fs fi.FullPath = some h))) =
      g.filter (fun fi =>
        decide (calculate_hash md5 fs fi.FullPath = some h)) ∨
     (quick_hash_groups md5 fs g).flatMap (fun q =>
        if q.2.length < 2 then []
        else q.2.filter (fun fi =>
          decide (calculate_hash md5 fs fi.FullPath = some h))) = []) ∧
    (2 ≤ (g.filter (fun fi =>
        decide (calculate_hash md5 fs fi.FullPath = some h))).length →
      (quick_hash_groups md5 fs g).flatMap (fun q =>
        if q.2.length < 2 then []
        else q.2.filter (fun fi =>
          decide (calculate_hash md5 fs fi.FullPath = some h))) =
      g.filter (fun fi =>
        decide (calculate_hash md5 fs fi.FullPath = some h))) := by
  by_cases hempty : g.filter (fun fi =>
      decide (calculate_hash md5 fs fi.FullPath = some h)) = []
  · have hq : (quick_hash_groups md5 fs g).flatMap (fun q =>
        if q.2.length < 2 then []
        else q.2.filter (fun fi =>
          decide (calculate_hash md5 fs fi.FullPath = some h))) = [] := by
      apply flatMap_eq_nil_of_forall
      intro q hqm
      by_cases hshort : q.2.length < 2
      · rw [if_pos hshort]
      · rw [if_neg hshort]
        obtain ⟨hqeq, -⟩ := groupFold_entry _ g q.1 q.2 hqm
        rw [List.eq_nil_iff_forall_not_mem]
        intro x hx
        rw [List.mem_filter] at hx
        have hxg : x ∈ g := by
          have := hx.1
          rw [hqeq, List.mem_filter] at this
          exact this.1
        have : x ∈ g.filter (fun fi =>
            decide (calculate_hash md5 fs fi.FullPath = some h)) :=
          List.mem_filter.2 ⟨hxg, hx.2⟩
        rw [hempty] at this
        cases this
    refine ⟨Or.inr hq, fun h2 => ?_⟩
    rw [hempty] at h2
    simp at h2
  · obtain ⟨fi₀, hfi₀⟩ := List.exists_mem_of_ne_nil _ hempty
    rw [List.mem_filter, decide_eq_true_eq, calculate_hash_eq_some_iff]
      at hfi₀
    have hfi₀g := hfi₀.1
    obtain ⟨c₀, hc₀, hmc₀⟩ := hfi₀.2
    have keyFact : ∀ fi : FileInfo,
        calculate_hash md5 fs fi.FullPath = some h →
        calculate_quick_hash md5 fs fi.FullPath =
          some (quickOf md5 c₀) := by
      intro fi hfi
      rw [calculate_hash_eq_some_iff] at hfi
      obtain ⟨c, hc, hmc⟩ := hfi
      have : c = c₀ := hinj (hmc.trans hmc₀.symm)
      subst this
      exact calculate_quick_hash_of_content md5 fs fi.FullPath c hc
    have hvanish : ∀ q ∈ quick_hash_groups md5 fs g,
        q.1 ≠ quickOf md5 c₀ →
        (if q.2.length < 2 then []
         else q.2.filter (fun fi =>
           decide (calculate_hash md5 fs fi.FullPath = some h))) = [] := by
      intro q hqm hqk
      by_cases hshort : q.2.length < 2
      · rw [if_pos hshort]
      · rw [if_neg hshort]
        obtain ⟨hqeq, -⟩ := groupFold_entry _ g q.1 q.2 hqm
        rw [List.eq_nil_iff_forall_not_mem]
        intro x hx
        rw [List.mem_filter, decide_eq_true_eq] at hx
        have hxq : calculate_quick_hash md5 fs x.FullPath = some q.1 := by
          have := hx.1
          rw [hqeq, List.mem_filter, decide_eq_true_eq] at this
          exact this.2
        rw [keyFact x hx.2] at hxq
        exact hqk (Option.some.inj hxq).symm
    have hnd : (dkeys (quick_hash_groups md5 fs g)).Nodup :=
      groupFold_nodup _ g [] (by simp)
    have hsingle := flatMap_single (quick_hash_groups md5 fs g) _ hnd
      (quickOf md5 c₀) hvanish
    have hdq : dget (quick_hash_groups md5 fs g) (quickOf md5 c₀) =
        some (g.filter (fun fi =>
          decide (calculate_quick_hash md5 fs fi.FullPath =
            some (quickOf md5 c₀)))) := by
      rw [quick_hash_groups, groupFold_dget, dget_nil]
      cases hfil : g.filter (fun fi =>
          decide (calculate_quick_hash md5 fs fi.FullPath =
            some (quickOf md5 c₀))) with
      | nil =>
        exfalso
        have : fi₀ ∈ g.filter (fun fi =>
            decide (calculate_quick_hash md5 fs fi.FullPath =
              some (quickOf md5 c₀))) := by
          rw [List.mem_filter, decide_eq_true_eq]
          refine ⟨hfi₀g, keyFact fi₀ ?_⟩
          rw [calculate_hash_eq_some_iff]
          exact ⟨c₀, hc₀, hmc₀⟩
        rw [hfil] at this
        cases this
      | cons x xs => rw [obind_none_cons]
    have hsub : (g.filter (fun fi =>
          decide (calculate_quick_hash md5 fs fi.FullPath =
            some (quickOf md5 c₀)))).filter (fun fi =>
          decide (calculate_hash md5 fs fi.FullPath = some h)) =
        g.filter (fun fi =>
          decide (calculate_hash md5 fs fi.FullPath = some h)) := by
      rw [List.filter_filter]
      apply List.filter_congr
      intro fi _
      by_cases hfull : calculate_hash md5 fs fi.FullPath = some h
      · simp [hfull, keyFact fi hfull]
      · simp [hfull]
    rw [hdq] at hsingle
    dsimp only at hsingle
    by_cases hlen : (g.filter (fun fi =>
        decide (calculate_quick_hash md5 fs fi.FullPath =
          some (quickOf md5 c₀)))).length < 2
    · constructor
      · refine Or.inr ?_
        rw [hsingle, if_pos hlen]
      · intro h2
        exfalso
        have hle := List.length_filter_le (fun fi =>
          decide (calculate_hash md5 fs fi.FullPath = some h))
          (g.filter (fun fi =>
            decide (calculate_quick_hash md5 fs fi.FullPath =
              some (quickOf md5 c₀))))
        rw [hsub] at hle
        omega
    · constructor
      · refine Or.inl ?_
        rw [hsingle, if_neg hlen, hsub]
      · intro h2
        rw [hsingle, if_neg hlen, hsub]

end Detector

namespace Detector

/-- The records a size-group entry contributes to the `file_hashes` bucket
    of the full hash `h`, without the quick-hash pre-filter. -/
def sizePieceFull (md5 : List Nat → List Nat) (fs : FS) (h : List Nat)
    (p : Nat × List FileInfo) : List FileInfo :=
  if p.2.length < 2 then []
  else p.2.filter (fun fi =>
    decide (calculate_hash md5 fs fi.FullPath = some h))

/-- The same contribution with the quick-hash pre-filter enabled. -/
def sizePieceQuick (md5 : List Nat → List Nat) (fs : FS) (h : List Nat)
    (p : Nat × List FileInfo) : List FileInfo :=
  if p.2.length < 2 then []
  else (quick_hash_groups md5 fs p.2).flatMap (fun q =>
    if q.2.length < 2 then []
    else q.2.filter (fun fi =>
      decide (calculate_hash md5 fs fi.FullPath = some h)))

theorem file_hashes_dget_true (md5 : List Nat → List Nat) (fs : FS)
    (files : List FileInfo) (h : List Nat) :
    dget (file_hashes md5 fs true files) h =
      obind none
        ((size_groups fs files).flatMap (sizePieceQuick md5 fs h)) := by
  rw [file_hashes_dget]
  rfl

theorem file_hashes_dget_false (md5 : List Nat → List Nat) (fs : FS)
    (files : List FileInfo) (h : List Nat) :
    dget (file_hashes md5 fs false files) h =
      obind none
        ((size_groups fs files).flatMap (sizePieceFull md5 fs h)) := by
  rw [file_hashes_dget]
  rfl

theorem sizePieceQuick_cases (md5 : List Nat → List Nat)
    (hinj : Function.Injective md5) (fs : FS) (h : List Nat)
    (p : Nat × List FileInfo) :
    sizePieceQuick md5 fs h p = sizePieceFull md5 fs h p ∨
    sizePieceQuick md5 fs h p = [] := by
  unfold sizePieceQuick sizePieceFull
  by_cases hs : p.2.length < 2
  · rw [if_pos hs, if_pos hs]
    exact Or.inl rfl
  · rw [if_neg hs, if_neg hs]
    exact (quick_pass_per_group md5 hinj fs h p.2).1

theorem sizePieceQuick_of_ge2 (md5 : List Nat → List Nat)
    (hinj : Function.Injective md5) (fs : FS) (h : List Nat)
    (p : Nat × List FileInfo)
    (h2 : 2 ≤ (sizePieceFull md5 fs h p).length) :
    sizePieceQuick md5 fs h p = sizePieceFull md5 fs h p := by
  unfold sizePieceQuick sizePieceFull at *
  by_cases hs : p.2.length < 2
  · rw [if_pos hs] at h2
    simp at h2
  · rw [if_neg hs] at h2 ⊢
    rw [if_neg hs]
    exact (quick_pass_per_group md5 hinj fs h p.2).2 h2

theorem sizeKey_some (fs : FS) (fi : FileInfo) (n : Nat)
    (h : sizeKey fs fi = some n) :
    ∃ c, fs fi.FullPath = some c ∧ c.length = n := by
  unfold sizeKey at h
  by_cases hp : fi.FullPath = []
  · rw [if_pos hp] at h
    cases h
  · rw [if_neg hp] at h
    cases hc : fs fi.FullPath with
    | none => rw [hc] at h; cases h
    | some c =>
      rw [hc] at h
      exact ⟨c, rfl, Option.some.inj h⟩

theorem sizePieceFull_key (md5 : List Nat → List Nat) (fs : FS)
    (files : List FileInfo) (h : List Nat) (p : Nat × List FileInfo)
    (hp : p ∈ size_groups fs files)
    (hne : sizePieceFull md5 fs h p ≠ []) :
    ∃ c, md5 c = h ∧ c.length = p.1 := by
  unfold sizePieceFull at hne
  by_cases hs : p.2.length < 2
  · rw [if_pos hs] at hne
    exact absurd rfl hne
  · rw [if_neg hs] at hne
    obtain ⟨fi, hfi⟩ := List.exists_mem_of_ne_nil _ hne
    rw [List.mem_filter, decide_eq_true_eq, calculate_hash_eq_some_iff]
      at hfi
    have hfig := hfi.1
    obtain ⟨c, hc, hmc⟩ := hfi.2
    obtain ⟨hpeq, -⟩ := groupFold_entry (sizeKey fs) files p.1 p.2
      (by obtain ⟨n, g⟩ := p; exact hp)
    have hkey : sizeKey fs fi = some p.1 := by
      have := hpeq ▸ hfig
      rw [List.mem_filter, decide_eq_true_eq] at this
      exact this.2
    obtain ⟨c', hc', hlen⟩ := sizeKey_some fs fi p.1 hkey
    rw [hc] at hc'
    cases hc'
    exact ⟨c, hmc, hlen⟩

end Detector

namespace Detector

theorem obind_none_eq_some_iff {β : Type} (x l : List β) (hl : l ≠ []) :
    obind none x = some l ↔ x = l := by
  cases x with
  | nil =>
    rw [obind_none_nil]
    constructor
    · intro h; cases h
    · intro h; exact absurd h.symm hl
  | cons c cs =>
    rw [obind_none_cons]
    constructor
    · intro h; exact Option.some.inj h
    · intro h; rw [h]

theorem quickPass_nodup (md5 : List Nat → List Nat) (fs : FS)
    (entries : List (QuickDigest × List FileInfo))
    (acc : List (List Nat × List FileInfo)) (h : (dkeys acc).Nodup) :
    (dkeys (entries.foldl (fun acc q =>
        if q.2.length < 2 then acc
        else groupFold (fun fi => calculate_hash md5 fs fi.FullPath) q.2 acc)
      acc)).Nodup := by
  induction entries generalizing acc with
  | nil => exact h
  | cons q rest ih =>
    rw [List.foldl_cons]
    by_cases hq : q.2.length < 2
    · rw [if_pos hq]
      exact ih acc h
    · rw [if_neg hq]
      exact ih _ (groupFold_nodup _ q.2 acc h)

theorem file_hashes_nodup (md5 : List Nat → List Nat) (fs : FS)
    (useQuick : Bool) (files : List FileInfo) :
    (dkeys (file_hashes md5 fs useQuick files)).Nodup := by
  unfold file_hashes
  generalize size_groups fs files = sgs
  suffices H : ∀ (acc : List (List Nat × List FileInfo)),
      (dkeys acc).Nodup →
      (dkeys (sgs.foldl (fun acc p =>
        if p.2.length < 2 then acc
        else if useQuick then
          (quick_hash_groups md5 fs p.2).foldl (fun acc q =>
            if q.2.length < 2 then acc
            else groupFold (fun fi => calculate_hash md5 fs fi.FullPath) q.2
              acc) acc
        else groupFold (fun fi => calculate_hash md5 fs fi.FullPath) p.2 acc)
        acc)).Nodup from H [] (by simp)
  induction sgs with
  | nil => intro acc h; exact h
  | cons p rest ih =>
    intro acc h
    rw [List.foldl_cons]
    by_cases hp : p.2.length < 2
    · rw [if_pos hp]
      exact ih acc h
    · rw [if_neg hp]
      cases useQuick with
      | true =>
        rw [if_pos rfl]
        exact ih _ (quickPass_nodup md5 fs _ acc h)
      | false =>
        rw [if_neg (by simp)]
        exact ih _ (groupFold_nodup _ p.2 acc h)

/-- The heart of the quick-hash/full-hash equivalence: for every full-hash
    value `h`, a bucket of at least two records appears in the
    `file_hashes` index with the quick-hash pre-filter enabled exactly when
    it appears without it. -/
theorem buckets_eq_of_ge2 (md5 : List Nat → List Nat)
    (hinj : Function.Injective md5) (fs : FS) (files : List FileInfo)
    (h : List Nat) (l : List FileInfo) (hl : 2 ≤ l.length) :
    (dget (file_hashes md5 fs true files) h = some l ↔
     dget (file_hashes md5 fs false files) h = some l) := by
  have hlne : l ≠ [] := by
    intro hn
    rw [hn] at hl
    simp at hl
  rw [file_hashes_dget_true, file_hashes_dget_false,
    obind_none_eq_some_iff _ l hlne, obind_none_eq_some_iff _ l hlne]
  have hnd : (dkeys (size_groups fs files)).Nodup :=
    groupFold_nodup _ files [] (by simp)
  by_cases hex : ∃ p ∈ size_groups fs files, sizePieceFull md5 fs h p ≠ []
  · obtain ⟨p₀, hp₀, hp₀ne⟩ := hex
    have hzF : ∀ p ∈ size_groups fs files, p.1 ≠ p₀.1 →
        sizePieceFull md5 fs h p = [] := by
      intro p hp hk
      by_contra hne
      obtain ⟨c, hmc, hlen⟩ := sizePieceFull_key md5 fs files h p hp hne
      obtain ⟨c', hmc', hlen'⟩ :=
        sizePieceFull_key md5 fs files h p₀ hp₀ hp₀ne
      have : c = c' := hinj (hmc.trans hmc'.symm)
      subst this
      exact hk (hlen ▸ hlen' ▸ rfl)
    have hzQ : ∀ p ∈ size_groups fs files, p.1 ≠ p₀.1 →
        sizePieceQuick md5 fs h p = [] := by
      intro p hp hk
      rcases sizePieceQuick_cases md5 hinj fs h p with hq | hq
      · rw [hq]
        exact hzF p hp hk
      · exact hq
    have hd₀ : dget (size_groups fs files) p₀.1 = some p₀.2 :=
      dget_eq_some_of_mem_nodup _ hnd p₀.1 p₀.2 (by
        obtain ⟨n, g⟩ := p₀; exact hp₀)
    have hFF := flatMap_single (size_groups fs files)
      (sizePieceFull md5 fs h) hnd p₀.1 hzF
    have hFQ := flatMap_single (size_groups fs files)
      (sizePieceQuick md5 fs h) hnd p₀.1 hzQ
    rw [hd₀] at hFF hFQ
    dsimp only at hFF hFQ
    have hpair : ((p₀.1, p₀.2) : Nat × List FileInfo) = p₀ := rfl
    rw [hpair] at hFF hFQ
    rw [hFF, hFQ]
    constructor
    · intro hq
      rcases sizePieceQuick_cases md5 hinj fs h p₀ with hc | hc
      · rw [← hc]
        exact hq
      · rw [hc] at hq
        exact absurd hq.symm hlne
    · intro hf
      rw [sizePieceQuick_of_ge2 md5 hinj fs h p₀ (by rw [hf]; exact hl)]
      exact hf
  · push_neg at hex
    have hF : (size_groups fs files).flatMap (sizePieceFull md5 fs h)
        = [] := flatMap_eq_nil_of_forall _ _ (fun p hp => hex p hp)
    have hQ : (size_groups fs files).flatMap (sizePieceQuick md5 fs h)
        = [] := by
      apply flatMap_eq_nil_of_forall
      intro p hp
      rcases sizePieceQuick_cases md5 hinj fs h p with hq | hq
      · rw [hq]
        exact hex p hp
      · exact hq
    rw [hF, hQ]

/-- C2: with a collision-free digest, enabling or disabling the quick-hash
    pre-filter yields the same set of duplicate groups with the same
    members: a group is in the result of `find_duplicates` with
    `use_quick_hash=True` exactly when it is in the result with
    `use_quick_hash=False`. -/
theorem find_duplicates_quick_hash_equivalence (md5 : List Nat → List Nat)
    (hinj : Function.Injective md5) (fs : FS) (files : List FileInfo) :
    ∀ g, g ∈ find_duplicates md5 fs files true ↔
      g ∈ find_duplicates md5 fs files false := by
  intro g
  unfold find_duplicates
  rw [mem_sortByCountDesc, mem_sortByCountDesc, List.mem_filterMap,
    List.mem_filterMap]
  constructor
  · rintro ⟨p, hp, hpg⟩
    by_cases h2 : 1 < p.2.length
    · rw [if_pos h2] at hpg
      have hd : dget (file_hashes md5 fs true files) p.1 = some p.2 :=
        dget_eq_some_of_mem_nodup _ (file_hashes_nodup md5 fs true files)
          p.1 p.2 (by obtain ⟨h', l'⟩ := p; exact hp)
      have hd' := (buckets_eq_of_ge2 md5 hinj fs files p.1 p.2
        (by omega)).1 hd
      refine ⟨(p.1, p.2), mem_of_dget_eq_some _ p.1 p.2 hd', ?_⟩
      rw [if_pos h2]
      exact hpg
    · rw [if_neg h2] at hpg
      cases hpg
  · rintro ⟨p, hp, hpg⟩
    by_cases h2 : 1 < p.2.length
    · rw [if_pos h2] at hpg
      have hd : dget (file_hashes md5 fs false files) p.1 = some p.2 :=
        dget_eq_some_of_mem_nodup _ (file_hashes_nodup md5 fs false files)
          p.1 p.2 (by obtain ⟨h', l'⟩ := p; exact hp)
      have hd' := (buckets_eq_of_ge2 md5 hinj fs files p.1 p.2
        (by omega)).2 hd
      refine ⟨(p.1, p.2), mem_of_dget_eq_some _ p.1 p.2 hd', ?_⟩
      rw [if_pos h2]
      exact hpg
    · rw [if_neg h2] at hpg
      cases hpg

theorem find_duplicates_quick_hash_equivalence_witness :
    ⟨[1, 2, 3], 2, [⟨"A".toList, 0⟩, ⟨"B".toList, 1⟩], 6⟩ ∈
        find_duplicates id fsABC filesABC true ↔
    ⟨[1, 2, 3], 2, [⟨"A".toList, 0⟩, ⟨"B".toList, 1⟩], 6⟩ ∈
        find_duplicates id fsABC filesABC false :=
  find_duplicates_quick_hash_equivalence id (fun _ _ h => h) fsABC filesABC
    ⟨[1, 2, 3], 2, [⟨"A".toList, 0⟩, ⟨"B".toList, 1⟩], 6⟩

end Detector
